import Mathlib

/-!
# ferry-go: routing engine

A shallow embedding of `router.go` (pattern compiler, dispatcher, parameter
extraction, groups) and of the parts of `context.go` it touches, with the
middleware chain modelled from the specification, followed by the theorems
that settle the specification's claims about them.

Go strings are modelled by Lean strings (sequences of Unicode scalar values);
the separator of `strings.Split`, `strings.Contains` and `strings.ReplaceAll`
is a single character at every call site of the source, and is modelled so.
-/

namespace ferry

/-! ## Go standard library: `strings` -/

/-- Pieces of `s` between occurrences of `sep`, Go's `strings.Split` on characters:
always at least one piece, and `n + 1` pieces when `sep` occurs `n` times. -/
def splitChars (sep : Char) : List Char → List (List Char)
  | [] => [[]]
  | c :: cs =>
    if c = sep then [] :: splitChars sep cs
    else match splitChars sep cs with
      | [] => [[c]]
      | seg :: segs => (c :: seg) :: segs

/-- Go `strings.Split(s, sep)` for a one-character separator. -/
def stringsSplit (s : String) (sep : Char) : List String :=
  (splitChars sep s.data).map String.mk

/-- Go `strings.Contains(s, sep)` for a one-character `sep`. -/
def stringsContains (s : String) (sep : Char) : Bool :=
  s.data.contains sep

/-- Go `strings.ReplaceAll(s, old, new)` for a one-character `old`. -/
def stringsReplaceAll (s : String) (old : Char) (new : String) : String :=
  String.mk (s.data.flatMap fun c => if c = old then new.data else [c])

/-! ## Go standard library: `regexp`

`regexp.MatchString(pattern, s)` compiles `pattern` with the Perl flag set
(`^` is beginning of text, `$` is end of text, `.` is any character but
newline) and reports whether `s` CONTAINS a match.  The model covers the
fragment: literal characters, backslash followed by ASCII punctuation, `.`,
`^`, `$`, bracket classes of characters and ranges (optionally negated),
the postfix operators `*`, `+`, `?` with their lazy variants, alternation and
plain groups.  A pattern that the library rejects yields `none`; so does, in
this model, a pattern that uses a construct outside the fragment (counted
repetition, flag groups, alphanumeric escapes, named classes).  Resource
limits of the library are not modelled.
-/

/-- Abstract syntax of the regular expressions of the fragment. -/
inductive Regex where
  | empty : Regex
  | lit (c : Char) : Regex
  | anyNotNL : Regex
  | cls (neg : Bool) (ranges : List (Char × Char)) : Regex
  | bol : Regex
  | eol : Regex
  | seq (a b : Regex) : Regex
  | alt (a b : Regex) : Regex
  | star (a : Regex) : Regex
  deriving DecidableEq, Repr

/-- Postfix repetition operators. -/
inductive RepOp where
  | star | plus | quest
  deriving DecidableEq, Repr

/-- Tokens of a pattern. -/
inductive Token where
  | atom (r : Regex)
  | rep (op : RepOp)
  | bar
  | lparen
  | rparen
  deriving DecidableEq, Repr

/-- Position of the scanner inside a pattern. -/
inductive LexMode where
  | normal
  | afterLParen
  | esc
  | clsOpen
  | clsItem (neg first : Bool) (acc : List (Char × Char))
  | clsLo (neg : Bool) (acc : List (Char × Char)) (lo : Char) (raw : Bool)
  | clsDash (neg : Bool) (acc : List (Char × Char)) (lo : Char)
  | clsEscLo (neg : Bool) (acc : List (Char × Char))
  | clsEscHi (neg : Bool) (acc : List (Char × Char)) (lo : Char)
  deriving DecidableEq, Repr

/-- ASCII letter or digit (`isalnum` of regexp/syntax). -/
def isAlnum (c : Char) : Bool :=
  ('0' ≤ c && c ≤ '9') || ('A' ≤ c && c ≤ 'Z') || ('a' ≤ c && c ≤ 'z')

/-- Characters that a backslash turns into themselves: ASCII and not alphanumeric. -/
def isEscapable (c : Char) : Bool :=
  decide (c.toNat < 128) && !isAlnum c

/-- One character in normal mode. -/
def lexNormal (c : Char) : Option (LexMode × List Token) :=
  if c = '\\' then some (.esc, [])
  else if c = '[' then some (.clsOpen, [])
  else if c = '(' then some (.afterLParen, [.lparen])
  else if c = ')' then some (.normal, [.rparen])
  else if c = '|' then some (.normal, [.bar])
  else if c = '*' then some (.normal, [.rep .star])
  else if c = '+' then some (.normal, [.rep .plus])
  else if c = '?' then some (.normal, [.rep .quest])
  else if c = '^' then some (.normal, [.atom .bol])
  else if c = '$' then some (.normal, [.atom .eol])
  else if c = '.' then some (.normal, [.atom .anyNotNL])
  else if c = Char.ofNat 123 then none
  else some (.normal, [.atom (.lit c)])

/-- One character at the head of the loop of a bracket class. -/
def lexClsItem (neg first : Bool) (acc : List (Char × Char)) (c : Char) :
    Option (LexMode × List Token) :=
  if c = ']' && !first then some (.normal, [.atom (.cls neg acc)])
  else if c = '\\' then some (.clsEscLo neg acc, [])
  else some (.clsLo neg acc c (c = '['), [])

/-- One step of the scanner: the next mode and the tokens completed by `c`. -/
def lexStep : LexMode → Char → Option (LexMode × List Token)
  | .normal, c => lexNormal c
  | .afterLParen, c => if c = '?' then none else lexNormal c
  | .esc, c => if isEscapable c then some (.normal, [.atom (.lit c)]) else none
  | .clsOpen, c => if c = '^' then some (.clsItem true true [], []) else lexClsItem false true [] c
  | .clsItem neg first acc, c => lexClsItem neg first acc c
  | .clsLo neg acc lo raw, c =>
    if c = '-' then some (.clsDash neg acc lo, [])
    else if raw && c = ':' then none
    else lexClsItem neg false (acc ++ [(lo, lo)]) c
  | .clsDash neg acc lo, c =>
    if c = ']' then some (.normal, [.atom (.cls neg (acc ++ [(lo, lo), ('-', '-')]))])
    else if c = '\\' then some (.clsEscHi neg acc lo, [])
    else if lo ≤ c then some (.clsItem neg false (acc ++ [(lo, c)]), [])
    else none
  | .clsEscLo neg acc, c =>
    if isEscapable c then some (.clsLo neg acc c false, []) else none
  | .clsEscHi neg acc lo, c =>
    if isEscapable c && lo ≤ c then some (.clsItem neg false (acc ++ [(lo, c)]), []) else none

/-- Scanner: the token sequence of a pattern, `none` on a malformed pattern. -/
def lexRun : LexMode → List Char → Option (List Token)
  | .normal, [] => some []
  | .afterLParen, [] => some []
  | _, [] => none
  | m, c :: cs =>
    match lexStep m c with
    | none => none
    | some (m', out) => (lexRun m' cs).map (out ++ ·)

/-- Concatenation of the items of a sequence, given last item first. -/
def mkSeq (items : List Regex) : Regex :=
  items.foldl (fun acc r => Regex.seq r acc) Regex.empty

/-- Alternation of the finished branches (last first) and the current one. -/
def mkAlt (alts : List Regex) (last : Regex) : Regex :=
  alts.foldl (fun acc r => Regex.alt r acc) last

/-- Meaning of a postfix operator. -/
def applyRep : RepOp → Regex → Regex
  | .star, r => .star r
  | .plus, r => .seq r (.star r)
  | .quest, r => .alt r .empty

/-- What the previous token was, for the rule against stacked repetitions. -/
inductive RepState where
  | fresh
  | afterRep
  | afterLazy
  deriving DecidableEq, Repr

/-- Saved context of an enclosing group. -/
structure Frame where
  alts : List Regex
  items : List Regex

/-- Parser on tokens: `stack` holds the enclosing groups, `alts` the finished
branches of the current group, `items` the current sequence (last first). -/
def parseRun (stack : List Frame) (alts items : List Regex) (rs : RepState) :
    List Token → Option Regex
  | [] =>
    match stack with
    | [] => some (mkAlt alts (mkSeq items))
    | _ :: _ => none
  | .atom r :: ts => parseRun stack alts (r :: items) .fresh ts
  | .lparen :: ts => parseRun (⟨alts, items⟩ :: stack) [] [] .fresh ts
  | .rparen :: ts =>
    match stack with
    | [] => none
    | f :: st => parseRun st f.alts (mkAlt alts (mkSeq items) :: f.items) .fresh ts
  | .bar :: ts => parseRun stack (mkSeq items :: alts) [] .fresh ts
  | .rep op :: ts =>
    match rs with
    | .afterLazy => none
    | .afterRep => if op = .quest then parseRun stack alts items .afterLazy ts else none
    | .fresh =>
      match items with
      | [] => none
      | r :: items' => parseRun stack alts (applyRep op r :: items') .afterRep ts

/-- Go `regexp.Compile`, as used by `MatchString`. -/
def regexpCompile (pattern : String) : Option Regex :=
  match lexRun .normal pattern.data with
  | none => none
  | some ts => parseRun [] [] [] .fresh ts

/-- All ways of cutting a word in two. -/
def splits : List Char → List (List Char × List Char)
  | [] => [([], [])]
  | c :: cs => ([], c :: cs) :: (splits cs).map fun p => (c :: p.1, p.2)

/-- Membership of a character in a bracket class. -/
def inClass (neg : Bool) (ranges : List (Char × Char)) (c : Char) : Bool :=
  neg != ranges.any fun p => decide (p.1 ≤ c) && decide (c ≤ p.2)

/-- Iteration of a matcher `m`: the word is cut into non-empty pieces, each
matched by `m`; `n` bounds the number of pieces. -/
def starMatch (m : Bool → List Char → Bool → Bool) : Nat → Bool → List Char → Bool → Bool
  | _, _, [], _ => true
  | 0, _, _ :: _, _ => false
  | n + 1, atStart, c :: cs, atEnd =>
    (splits cs).any fun p =>
      m atStart (c :: p.1) (atEnd && p.2.isEmpty) && starMatch m n false p.2 atEnd

/-- Denotation of a regular expression: `r.matchWord atStart w atEnd` says that
`r` matches the word `w`, where `atStart` tells whether `w` begins at the
beginning of the text and `atEnd` whether it ends at the end of the text. -/
def Regex.matchWord : Regex → Bool → List Char → Bool → Bool
  | .empty, _, w, _ => w.isEmpty
  | .lit c, _, w, _ => w == [c]
  | .anyNotNL, _, w, _ => match w with
    | [c] => c != '\n'
    | _ => false
  | .cls neg ranges, _, w, _ => match w with
    | [c] => inClass neg ranges c
    | _ => false
  | .bol, atStart, w, _ => w.isEmpty && atStart
  | .eol, _, w, atEnd => w.isEmpty && atEnd
  | .seq a b, atStart, w, atEnd =>
    (splits w).any fun p =>
      a.matchWord atStart p.1 (atEnd && p.2.isEmpty) &&
        b.matchWord (atStart && p.1.isEmpty) p.2 atEnd
  | .alt a b, atStart, w, atEnd => a.matchWord atStart w atEnd || b.matchWord atStart w atEnd
  | .star a, atStart, w, atEnd => starMatch a.matchWord w.length atStart w atEnd

/-- Unanchored search: some factor of the text is matched by `r`. -/
def Regex.search (r : Regex) (s : List Char) : Bool :=
  (splits s).any fun p =>
    (splits p.2).any fun q => r.matchWord p.1.isEmpty q.1 q.2.isEmpty

/-- Go `regexp.MatchString(pattern, s)`: `none` is the error result. -/
def regexpMatchString (pattern s : String) : Option Bool :=
  (regexpCompile pattern).map fun r => r.search s.data

/-! ## router.go -/

/-- The package variable `routerRegexReplace`. -/
def routerRegexReplace : String := "[a-zA-Z0-9_-]*"

/-- Body of the loop of `findAndReplace` over the pieces of the path. -/
def findAndReplaceStep (result v : String) : String :=
  if v = "" then result
  else if stringsContains v ':' then result ++ "/" ++ routerRegexReplace
  else result ++ "/" ++ v

/-- Go `findAndReplace`: the pattern of a declared path. -/
def findAndReplace (path : String) : String :=
  if !stringsContains path ':' then
    "^" ++ path ++ "$"
  else
    let result := ""
    let slitted := stringsSplit path '/'
    let result := slitted.foldl findAndReplaceStep result
    let result := stringsReplaceAll result '/' "\\/"
    let result := "^" ++ result ++ "$"
    result

/-- Loop of `extractParamFromPath` over `routerSplit`, entered at index `k`.
The result `none` stands for the run-time panic of an index out of range. -/
def extractParamLoop (requestSplit : List String) (paramWithWildCard : String) :
    Nat → List String → Option String
  | _, [] => some ""
  | k, v :: vs =>
    if v = paramWithWildCard then requestSplit[k]?
    else extractParamLoop requestSplit paramWithWildCard (k + 1) vs

/-- Go `extractParamFromPath`; `none` stands for a run-time panic. -/
def extractParamFromPath (routerPath requestPath paramName : String) : Option String :=
  let routerSplit := stringsSplit routerPath '/'
  let requestSplit := stringsSplit requestPath '/'
  if routerSplit.length ≠ requestSplit.length then
    some ""
  else
    let paramWithWildCard := ":" ++ paramName
    extractParamLoop requestSplit paramWithWildCard 0 routerSplit

/-- Go `map[string]string`: a list of bindings with pairwise distinct keys. -/
abbrev ParamsMap := List (String × String)

/-- Go `m[key] = value`: the binding of `key` is replaced. -/
def mapSet (m : ParamsMap) (key value : String) : ParamsMap :=
  (key, value) :: m.filter fun b => b.1 ≠ key

/-- Go `m[key]`, with `none` for an absent key. -/
def mapGet (m : ParamsMap) (key : String) : Option String :=
  m.lookup key

/-- Loop of `getParamsFromPath` over `routerSplit`, entered at index `k`.
The result `none` stands for the run-time panic of an index out of range. -/
def getParamsLoop (requestSplit : List String) :
    Nat → List String → ParamsMap → Option ParamsMap
  | _, [], paramsMap => some paramsMap
  | k, v :: vs, paramsMap =>
    if stringsContains v ':' then
      let key := stringsReplaceAll v ':' ""
      match requestSplit[k]? with
      | none => none
      | some x => getParamsLoop requestSplit (k + 1) vs (mapSet paramsMap key x)
    else getParamsLoop requestSplit (k + 1) vs paramsMap

/-- Go `getParamsFromPath`; `none` stands for a run-time panic. -/
def getParamsFromPath (routerPath requestPath : String) : Option ParamsMap :=
  let paramsMap : ParamsMap := []
  let routerSplit := stringsSplit routerPath '/'
  let requestSplit := stringsSplit requestPath '/'
  getParamsLoop requestSplit 0 routerSplit paramsMap

/-! ## Dispatcher (router.go) and request context (context.go) -/

/-- Calls received by a response sink (`http.ResponseWriter`), in order. -/
inductive WriterCall where
  | writeHeader (status : Nat)
  | write (body : String)
  deriving DecidableEq, Repr

/-- A response sink, known by the calls it has received. -/
abbrev ResponseWriter := List WriterCall

/-- Go `Ctx`, with the fields that routing reads or writes: the response sink, the
method and the URL path of the request, and the declared path of the matched route. -/
structure Ctx where
  Writer : ResponseWriter
  requestMethod : String
  requestURLPath : String
  routerPath : String
  queryPath : String
  deriving DecidableEq, Repr

/-- Go `handler`: a handler may change the context and the sink it holds, and
returns an error, known by its message, or `nil` (here `none`). -/
abbrev handler := Ctx → Ctx × Option String

/-- Go `router`: one registered route. -/
structure router where
  routerPath : String
  regexPath : String
  handler : handler

/-- Modelled from the spec: the declaration of the struct `Ferry` is not among the
sources; its fields are the two maps that `router.go` reads and writes, the route
table and the middleware lists per group prefix.  A map lookup yields `none` for
the nil slice of an absent key. -/
structure Ferry where
  routerMap : String → Option (List router)
  groupMiddlewareMap : String → Option (List handler)

/-- Go `http.StatusNotFound`. -/
def statusNotFound : Nat := 404

/-- Go `http.StatusInternalServerError`. -/
def statusInternalServerError : Nat := 500

/-- Go `handle404`. -/
def handle404 (w : ResponseWriter) : ResponseWriter :=
  w ++ [.writeHeader statusNotFound, .write "Check URL"]

/-- Go `handlerRouterError`; `err` is the message of the error. -/
def handlerRouterError (err : String) (w : ResponseWriter) : ResponseWriter :=
  w ++ [.writeHeader statusInternalServerError, .write err]

/-- What a dispatch leaves: the context, and the positions in the route list of the
routes whose handler was called, in the order of the calls. -/
structure Outcome where
  ctx : Ctx
  invoked : List Nat

/-- Loop of `handleRouter` over the routes, entered at position `i`. -/
def handleRouterLoop (urlPath : String) (ctx : Ctx) : Nat → List router → Outcome
  | _, [] => ⟨{ ctx with Writer := handle404 ctx.Writer }, []⟩
  | i, route :: rest =>
    let matched := (regexpMatchString route.regexPath urlPath).getD false
    if matched then
      let ctx := { ctx with routerPath := route.routerPath }
      match route.handler ctx with
      | (ctx, some err) => ⟨{ ctx with Writer := handlerRouterError err ctx.Writer }, [i]⟩
      | (ctx, none) => ⟨ctx, [i]⟩
    else handleRouterLoop urlPath ctx (i + 1) rest

/-- Go `handleRouter`. -/
def handleRouter (ctx : Ctx) (_ferry : Ferry) (routers : List router) : Outcome :=
  let urlPath := ctx.requestURLPath
  handleRouterLoop urlPath ctx 0 routers

/-- Go `handleRouting`.  The function `groupLevelMiddleware` that it calls is defined
in a file that is not among the sources, and is a parameter here. -/
def handleRouting (groupLevelMiddleware : Ctx → Ferry → List router → Outcome)
    (ferry : Ferry) (ctx : Ctx) : Outcome :=
  match ferry.routerMap ctx.requestMethod with
  | some routesByMethod => groupLevelMiddleware ctx ferry routesByMethod
  | none => ⟨{ ctx with Writer := handle404 ctx.Writer }, []⟩

/-- Go `Ctx.GetParam`. -/
def Ctx.GetParam (ctx : Ctx) (name : String) : Option String :=
  extractParamFromPath ctx.routerPath ctx.requestURLPath name

/-- Go `Ctx.GetParams`. -/
def Ctx.GetParams (ctx : Ctx) : Option ParamsMap :=
  getParamsFromPath ctx.routerPath ctx.requestURLPath

/-! ## Groups (router.go) -/

/-- Go `group`.  The field `ferry` is the pointer to the owning server, here the
address of that server in the store. -/
structure group where
  path : String
  ferry : Nat
  middleware : List handler
  middlewareCurrentIndex : Int

/-- The servers in memory, by address: what the pointers to `Ferry` point to. -/
abbrev Store := Nat → Ferry

/-- The package variable `get`. -/
def get : String := "GET"

/-- The package variable `post`. -/
def post : String := "POST"

/-- Go `m[key] = append(m[key], x)` on a map of slices; the slice of an absent key is
nil, and `append` to it gives the slice of `x` alone. -/
def mapAppend {α : Type} (m : String → Option (List α)) (key : String) (x : α) :
    String → Option (List α) :=
  fun k => if k = key then some ((m key).getD [] ++ [x]) else m k

/-- Go `group.addRoute`, on the store that holds the owning server. -/
def group.addRoute (g : group) (method path : String) (h : handler) (store : Store) : Store :=
  let groupPath := g.path ++ path
  let pathWithRegex := findAndReplace groupPath
  let ferry := store g.ferry
  fun a =>
    if a = g.ferry then
      { ferry with
        routerMap := mapAppend ferry.routerMap method
          { routerPath := groupPath, regexPath := pathWithRegex, handler := h } }
    else store a

/-- Go `group.Get`. -/
def group.Get (g : group) (path : String) (h : handler) (store : Store) : Store :=
  g.addRoute get path h store

/-- Go `group.Post`. -/
def group.Post (g : group) (path : String) (h : handler) (store : Store) : Store :=
  g.addRoute post path h store

/-- Go `group.Use`, on the store that holds the owning server. -/
def group.Use (g : group) (h : handler) (store : Store) : Store :=
  let ferry := store g.ferry
  fun a =>
    if a = g.ferry then
      { ferry with groupMiddlewareMap := mapAppend ferry.groupMiddlewareMap g.path h }
    else store a

/-- Go `group.Group`. -/
def group.Group (g : group) (path : String) : group :=
  { path := g.path ++ path, ferry := g.ferry, middleware := [], middlewareCurrentIndex := 0 }

/-! ## Middleware chain

The functions that run the chain (`groupLevelMiddleware`, called by `handleRouting`,
and the application-level chain before it) are in a file that is not among the
sources.  They are modelled from the specification, section 4.3. -/

/-- Modelled from the spec: how a middleware ends, the chain functions being absent
from the sources.  A middleware either calls the `Next` continuation stored on the
context and returns what `Next` returns, or returns on its own, an error or nil,
without continuing. -/
inductive Verdict where
  | callNext
  | ret (err : Option String)
  deriving DecidableEq, Repr

/-- Modelled from the spec: a middleware, absent from the sources as a type of its
own: a function of the context, of the shape of a route handler, with access to
`Next`; it may change the context, and ends as its verdict says. -/
abbrev middleware := Ctx → Ctx × Verdict

/-- A stage of the chain: the global middleware under cursor `i`, the group-level
middleware under cursor `i`, or the handler of the route at position `i`. -/
inductive Stage where
  | app (i : Nat)
  | grp (i : Nat)
  | route (i : Nat)
  deriving DecidableEq, Repr

/-- What the chain leaves: the context, the error that came back through the chain,
and the stages that ran, in the order in which they ran. -/
structure ChainOutcome where
  ctx : Ctx
  err : Option String
  trace : List Stage
  deriving DecidableEq, Repr

/-- Modelled from the spec: one tier of the chain of section 4.3, absent from the
sources, its cursor at `i`.  The middleware under the cursor runs; when it calls
`Next` the cursor advances and the next middleware of the tier runs; once the cursor
is past the list, `Next` is `rest`.  A middleware that returns without calling
`Next` halts the chain with what it returns. -/
def runTier (tag : Nat → Stage) (rest : Ctx → ChainOutcome) :
    Nat → List middleware → Ctx → ChainOutcome
  | _, [], ctx => rest ctx
  | i, m :: ms, ctx =>
    match m ctx with
    | (ctx, .callNext) =>
      let out := runTier tag rest (i + 1) ms ctx
      { out with trace := tag i :: out.trace }
    | (ctx, .ret err) => ⟨ctx, err, [tag i]⟩

/-- Modelled from the spec: the dispatch of a request through the chain of section
4.3, absent from the sources: the global middleware in registration order, then the
middleware of the group of the requested route in registration order, then
`handleRouter` on the routes of the method; an error that a middleware returns goes
through `handlerRouterError`, the 500 path of a failed handler. -/
def dispatchChain (appMiddleware groupMiddleware : List middleware) (ferry : Ferry)
    (routers : List router) (ctx : Ctx) : ChainOutcome :=
  let final : Ctx → ChainOutcome := fun c =>
    let o := handleRouter c ferry routers
    ⟨o.ctx, none, o.invoked.map Stage.route⟩
  let out := runTier Stage.app (runTier Stage.grp final 0 groupMiddleware) 0 appMiddleware ctx
  match out.err with
  | some e => { out with ctx := { out.ctx with Writer := handlerRouterError e out.ctx.Writer } }
  | none => out

/-! ## Vocabulary of the statements -/

/-- Characters with a special meaning in a pattern of `regexp`; every other
character stands for itself. -/
def isMeta (c : Char) : Bool :=
  c = '\\' || c = '[' || c = '(' || c = ')' || c = '|' || c = '*' || c = '+' || c = '?' ||
    c = '^' || c = '$' || c = '.' || c = Char.ofNat 123

/-- ASCII letters, digits, underscore and hyphen. -/
def isTokenChar (c : Char) : Bool :=
  c.isAlpha || c.isDigit || c = '_' || c = '-'

/-- The ranges of the class in `routerRegexReplace`. -/
def tokenRanges : List (Char × Char) :=
  [('a', 'z'), ('A', 'Z'), ('0', '9'), ('_', '_'), ('-', '-')]

/-- Items of the patterns that `findAndReplace` builds from a path free of
special characters: a literal character, or the wildcard fragment. -/
inductive PatItem where
  | lit (c : Char)
  | wild
  deriving DecidableEq, Repr

/-- Tokens of an item. -/
def PatItem.toks : PatItem → List Token
  | .lit c => [.atom (.lit c)]
  | .wild => [.atom (.cls false tokenRanges), .rep .star]

/-- Regular expression of an item. -/
def PatItem.regex : PatItem → Regex
  | .lit c => .lit c
  | .wild => .star (.cls false tokenRanges)

/-- Right-nested concatenation of a list of expressions. -/
def seqOf (rs : List Regex) : Regex :=
  rs.foldr Regex.seq Regex.empty

/-- Words matched by a list of items, one after the other. -/
def ItemsMatch : List PatItem → List Char → Prop
  | [], w => w = []
  | .lit c :: its, w => ∃ v, w = c :: v ∧ ItemsMatch its v
  | .wild :: its, w => ∃ u v, w = u ++ v ∧ (∀ c ∈ u, isTokenChar c = true) ∧ ItemsMatch its v

/-- What the compiled pattern holds for one piece of a declared path that has a
wildcard: nothing for an empty piece, otherwise an escaped slash followed by the
wildcard fragment when the piece contains `:`, and by the piece itself when not. -/
def segmentPattern (seg : String) : String :=
  if seg = "" then ""
  else "\\/" ++ (if stringsContains seg ':' then routerRegexReplace else seg)

/-- No character of `s` is special in a pattern. -/
def isPlainString (s : String) : Bool :=
  s.data.all fun c => !isMeta c

/-- Every character of `s` is an ASCII letter, a digit, an underscore or a hyphen. -/
def isTokenString (s : String) : Bool :=
  s.data.all isTokenChar

/-- The piece `r` of a request path agrees with the piece `d` of a declared path:
`r` is made of token characters when `d` is a wildcard (contains `:`), and is `d`
itself when `d` is a literal. -/
def segmentAgrees (d r : String) : Prop :=
  if stringsContains d ':' then isTokenString r = true else r = d

instance (d r : String) : Decidable (segmentAgrees d r) := by
  unfold segmentAgrees
  exact inferInstance

/-- The test of `handleRouter` on one route: the pattern of the route is compiled
and searched in the URL path, and an error of the compilation counts as no match. -/
def routeMatches (route : router) (urlPath : String) : Bool :=
  (regexpMatchString route.regexPath urlPath).getD false

/-- The context that `handleRouter` leaves after the handler of `route` has run on
`ctx`: the handler's own, with the response to an error when it returned one. -/
def afterHandler (route : router) (ctx : Ctx) : Ctx :=
  match route.handler { ctx with routerPath := route.routerPath } with
  | (c, some err) => { c with Writer := handlerRouterError err c.Writer }
  | (c, none) => c

/-- A request `GET /auth` before dispatch, nothing written yet. -/
def sampleCtx : Ctx :=
  { Writer := [], requestMethod := "GET", requestURLPath := "/auth", routerPath := "",
    queryPath := "" }

/-- A handler that answers 200 with the given body and returns no error. -/
def sampleOk (body : String) : handler :=
  fun c => ({ c with Writer := c.Writer ++ [.writeHeader 200, .write body] }, none)

/-- A handler that writes nothing and returns the error `boom`. -/
def sampleFail : handler :=
  fun c => (c, some "boom")

/-- A route declared on `path` with the given handler, as `addRoute` builds it. -/
def sampleRoute (path : String) (h : handler) : router :=
  { routerPath := path, regexPath := findAndReplace path, handler := h }

/-- A server with an empty route table. -/
def sampleFerry : Ferry :=
  { routerMap := fun _ => none, groupMiddlewareMap := fun _ => none }

/-- A request `GET /name/bob` before dispatch, nothing written yet. -/
def sampleBobCtx : Ctx :=
  { Writer := [], requestMethod := "GET", requestURLPath := "/name/bob", routerPath := "",
    queryPath := "" }

/-- A handler in the manner of the example program: it answers 200 with a greeting
made of the parameter `name` that it reads from the context. -/
def sampleGreet : handler :=
  fun c => ({ c with Writer := c.Writer ++
    [.writeHeader 200, .write ("hello, " ++ (c.GetParam "name").getD "")] }, none)

/-- A group with prefix `/auth` on the server at address 0. -/
def sampleGroup : group :=
  { path := "/auth", ferry := 0, middleware := [], middlewareCurrentIndex := 0 }

/-- A store whose servers all have empty tables. -/
def sampleStore : Store :=
  fun _ => sampleFerry

/-- A middleware that writes `body` to the sink and calls `Next`. -/
def sampleMark (body : String) : middleware :=
  fun c => ({ c with Writer := c.Writer ++ [.write body] }, .callNext)

/-- A middleware that returns the error `denied` without calling `Next`. -/
def sampleDeny : middleware :=
  fun c => (c, .ret (some "denied"))

/-! ## Auxiliary definitions of the proofs -/

/-- The text `txt`, met in normal mode, is scanned into the tokens `ts` and
leaves the scanner in normal mode. -/
def LexesTo (txt : List Char) (ts : List Token) : Prop :=
  ∀ rest, lexRun .normal (txt ++ rest) = (lexRun .normal rest).map (ts ++ ·)

/-- Pattern text contributed by one piece of a declared path that has a wildcard. -/
def segText (d : List Char) : List Char :=
  if d = [] then [] else '\\' :: '/' :: (if ':' ∈ d then routerRegexReplace.data else d)

/-- Items of the pattern text of one piece of a declared path. -/
def segItems (d : List Char) : List PatItem :=
  if d = [] then [] else .lit '/' :: (if ':' ∈ d then [.wild] else d.map .lit)

/-- A piece `r` of a request path agrees with the piece `d` of a declared path:
made of token characters when `d` is a wildcard, equal to `d` when not. -/
def SegOK (d r : List Char) : Prop :=
  if ':' ∈ d then ∀ c ∈ r, isTokenChar c = true else r = d

/-- Value that the pieces `vs` of a router path, entered at index `k`, leave under
`key`: the piece of the request path at the index of the last piece of `vs` that
contains `:` and becomes `key` once every `:` is deleted. -/
def lastWild (req : List String) (key : String) : Nat → List String → Option String
  | _, [] => none
  | k, v :: vs =>
    match lastWild req key (k + 1) vs with
    | some y => some y
    | none => if stringsContains v ':' = true ∧ stringsReplaceAll v ':' "" = key then req[k]?
      else none

/-! ## Lemmas: the matcher -/

theorem mem_splits (w : List Char) (p : List Char × List Char) :
    p ∈ splits w ↔ p.1 ++ p.2 = w := by
  induction w generalizing p with
  | nil =>
    obtain ⟨u, v⟩ := p
    simp [splits]
  | cons c cs ih =>
    obtain ⟨u, v⟩ := p
    simp only [splits, List.mem_cons, List.mem_map, Prod.mk.injEq]
    constructor
    · rintro (⟨rfl, rfl⟩ | ⟨q, hq, rfl, rfl⟩)
      · rfl
      · simp [(ih q).1 hq]
    · intro h
      cases u with
      | nil => left; exact ⟨rfl, by simpa using h⟩
      | cons d u =>
        right
        simp only [List.cons_append, List.cons.injEq] at h
        exact ⟨(u, v), (ih (u, v)).2 h.2, by simp [h.1], rfl⟩

theorem matchWord_seq (a b : Regex) (bs es : Bool) (w : List Char) :
    (Regex.seq a b).matchWord bs w es = true ↔
      ∃ u v, u ++ v = w ∧ a.matchWord bs u (es && v.isEmpty) = true ∧
        b.matchWord (bs && u.isEmpty) v es = true := by
  simp only [Regex.matchWord, List.any_eq_true, mem_splits, Bool.and_eq_true]
  constructor
  · rintro ⟨⟨u, v⟩, h, h1, h2⟩
    exact ⟨u, v, h, h1, h2⟩
  · rintro ⟨u, v, h, h1, h2⟩
    exact ⟨(u, v), h, h1, h2⟩

theorem matchWord_lit (c : Char) (bs es : Bool) (w : List Char) :
    (Regex.lit c).matchWord bs w es = true ↔ w = [c] := by
  simp [Regex.matchWord]

theorem matchWord_cls (neg : Bool) (rg : List (Char × Char)) (bs es : Bool) (w : List Char) :
    (Regex.cls neg rg).matchWord bs w es = true ↔ ∃ c, w = [c] ∧ inClass neg rg c = true := by
  match w with
  | [] => simp [Regex.matchWord]
  | [c] => simp [Regex.matchWord]
  | _ :: _ :: _ => simp [Regex.matchWord]

theorem search_iff (r : Regex) (s : List Char) :
    r.search s = true ↔
      ∃ a w b, a ++ (w ++ b) = s ∧ r.matchWord a.isEmpty w b.isEmpty = true := by
  simp only [Regex.search, List.any_eq_true, mem_splits]
  constructor
  · rintro ⟨⟨a, r1⟩, h, ⟨w, b⟩, h2, h3⟩
    simp only at h h2 h3
    exact ⟨a, w, b, by rw [h2, h], h3⟩
  · rintro ⟨a, w, b, h, h3⟩
    exact ⟨(a, w ++ b), h, (w, b), rfl, h3⟩

theorem inClass_tokenRanges (c : Char) : inClass false tokenRanges c = isTokenChar c := by
  have h1 : ∀ a b : Char, a ≤ b ↔ a.val ≤ b.val := fun _ _ => Iff.rfl
  have h2 : ∀ a b : Char, a = b ↔ a.val = b.val := fun a b => Char.ext_iff
  simp only [inClass, tokenRanges, isTokenChar, Char.isAlpha, Char.isUpper, Char.isLower,
    Char.isDigit, List.any_cons, List.any_nil, h1]
  rw [Bool.eq_iff_iff]
  simp only [Bool.false_bne, Bool.or_eq_true, Bool.and_eq_true, decide_eq_true_eq, Bool.or_false,
    h2, ge_iff_le]
  have e1 : ('a' : Char).val = 97 := rfl
  have e2 : ('z' : Char).val = 122 := rfl
  have e3 : ('A' : Char).val = 65 := rfl
  have e4 : ('Z' : Char).val = 90 := rfl
  have e5 : ('0' : Char).val = 48 := rfl
  have e6 : ('9' : Char).val = 57 := rfl
  have e7 : ('_' : Char).val = 95 := rfl
  have e8 : ('-' : Char).val = 45 := rfl
  rw [e1, e2, e3, e4, e5, e6, e7, e8]
  have h3 : ∀ a b : UInt32, a ≤ b ↔ a.toNat ≤ b.toNat := fun _ _ => Iff.rfl
  have h4 : ∀ a b : UInt32, a = b ↔ a.toNat = b.toNat := fun a b =>
    ⟨fun h => by rw [h], fun h => UInt32.ext h⟩
  simp only [h3, h4]
  have n1 : (97 : UInt32).toNat = 97 := rfl
  have n2 : (122 : UInt32).toNat = 122 := rfl
  have n3 : (65 : UInt32).toNat = 65 := rfl
  have n4 : (90 : UInt32).toNat = 90 := rfl
  have n5 : (48 : UInt32).toNat = 48 := rfl
  have n6 : (57 : UInt32).toNat = 57 := rfl
  have n7 : (95 : UInt32).toNat = 95 := rfl
  have n8 : (45 : UInt32).toNat = 45 := rfl
  rw [n1, n2, n3, n4, n5, n6, n7, n8]
  omega

theorem starMatch_cls (rg : List (Char × Char)) (n : Nat) (bs es : Bool) (w : List Char)
    (hn : w.length ≤ n) :
    starMatch (Regex.cls false rg).matchWord n bs w es = true ↔
      ∀ c ∈ w, inClass false rg c = true := by
  induction n generalizing bs w with
  | zero =>
    cases w with
    | nil => simp [starMatch]
    | cons c cs => simp at hn
  | succ n ih =>
    cases w with
    | nil => simp [starMatch]
    | cons c cs =>
      simp only [List.length_cons, Nat.add_le_add_iff_right] at hn
      simp only [starMatch, List.any_eq_true, mem_splits, Bool.and_eq_true, matchWord_cls]
      constructor
      · rintro ⟨⟨u, v⟩, huv, ⟨d, hd, hin⟩, hrest⟩
        simp only [List.cons.injEq] at hd
        obtain ⟨rfl, rfl⟩ := hd
        simp only [List.nil_append] at huv
        subst huv
        have := (ih false v hn).1 hrest
        intro x hx
        rcases List.mem_cons.1 hx with rfl | hx
        · exact hin
        · exact this x hx
      · intro h
        refine ⟨([], cs), rfl, ⟨c, rfl, h c (List.mem_cons_self _ _)⟩, ?_⟩
        exact (ih false cs hn).2 fun x hx => h x (List.mem_cons_of_mem _ hx)

theorem matchWord_wild (bs es : Bool) (w : List Char) :
    PatItem.wild.regex.matchWord bs w es = true ↔ ∀ c ∈ w, isTokenChar c = true := by
  show starMatch (Regex.cls false tokenRanges).matchWord w.length bs w es = true ↔ _
  rw [starMatch_cls tokenRanges w.length bs es w (Nat.le_refl _)]
  simp only [inClass_tokenRanges]

theorem matchWord_items (its : List PatItem) (bs es : Bool) (w : List Char) :
    (seqOf (its.map PatItem.regex ++ [Regex.eol])).matchWord bs w es = true ↔
      es = true ∧ ItemsMatch its w := by
  induction its generalizing bs w with
  | nil =>
    simp only [List.map_nil, List.nil_append, seqOf, List.foldr_cons, List.foldr_nil,
      matchWord_seq, ItemsMatch]
    constructor
    · rintro ⟨u, v, huv, h1, h2⟩
      simp only [Regex.matchWord, Bool.and_eq_true, List.isEmpty_iff] at h1 h2
      obtain ⟨rfl, h1, -⟩ := h1
      subst h2
      exact ⟨h1, huv.symm⟩
    · rintro ⟨rfl, rfl⟩
      exact ⟨[], [], rfl, by simp [Regex.matchWord], by simp [Regex.matchWord]⟩
  | cons it its ih =>
    have hseq : seqOf ((it :: its).map PatItem.regex ++ [Regex.eol]) =
        Regex.seq it.regex (seqOf (its.map PatItem.regex ++ [Regex.eol])) := by
      simp [seqOf]
    rw [hseq, matchWord_seq]
    cases it with
    | lit c =>
      simp only [PatItem.regex, matchWord_lit, ItemsMatch]
      constructor
      · rintro ⟨u, v, huv, rfl, h2⟩
        obtain ⟨he, hv⟩ := (ih _ v).1 h2
        exact ⟨he, v, huv.symm, hv⟩
      · rintro ⟨he, v, rfl, hv⟩
        exact ⟨[c], v, rfl, rfl, (ih _ v).2 ⟨he, hv⟩⟩
    | wild =>
      simp only [matchWord_wild, ItemsMatch]
      constructor
      · rintro ⟨u, v, huv, hu, h2⟩
        obtain ⟨he, hv⟩ := (ih _ v).1 h2
        exact ⟨he, u, v, huv.symm, hu, hv⟩
      · rintro ⟨he, u, v, rfl, hu, hv⟩
        exact ⟨u, v, rfl, hu, (ih _ v).2 ⟨he, hv⟩⟩

theorem search_anchored_items (its : List PatItem) (s : List Char) :
    (seqOf (Regex.bol :: (its.map PatItem.regex ++ [Regex.eol]))).search s = true ↔
      ItemsMatch its s := by
  have hseq : seqOf (Regex.bol :: (its.map PatItem.regex ++ [Regex.eol])) =
      Regex.seq Regex.bol (seqOf (its.map PatItem.regex ++ [Regex.eol])) := by
    simp [seqOf]
  rw [hseq, search_iff]
  constructor
  · rintro ⟨a, w, b, habw, h⟩
    rw [matchWord_seq] at h
    obtain ⟨u, v, huv, h1, h2⟩ := h
    simp only [Regex.matchWord, Bool.and_eq_true, List.isEmpty_iff] at h1
    obtain ⟨rfl, rfl⟩ := h1
    obtain ⟨he, hv⟩ := (matchWord_items its _ _ v).1 h2
    simp only [List.isEmpty_iff] at he
    subst he
    simp only [List.nil_append, List.append_nil] at huv habw
    subst huv
    subst habw
    exact hv
  · intro h
    refine ⟨[], s, [], by simp, ?_⟩
    rw [matchWord_seq]
    exact ⟨[], s, rfl, by simp [Regex.matchWord], (matchWord_items its _ _ s).2 ⟨by simp, h⟩⟩

/-! ## Lemmas: scanner and parser -/

theorem LexesTo.nil : LexesTo [] [] := by
  intro rest
  simp

theorem LexesTo.append {a b : List Char} {ta tb : List Token}
    (ha : LexesTo a ta) (hb : LexesTo b tb) : LexesTo (a ++ b) (ta ++ tb) := by
  intro rest
  rw [List.append_assoc, ha, hb, Option.map_map]
  congr 1
  funext x
  simp

theorem LexesTo.plain {c : Char} (hc : isMeta c = false) :
    LexesTo [c] [.atom (.lit c)] := by
  intro rest
  simp only [isMeta, Bool.or_eq_false_iff, decide_eq_false_iff_not] at hc
  simp [lexRun, lexStep, lexNormal, hc]

theorem LexesTo.plainWord {w : List Char} (hw : ∀ c ∈ w, isMeta c = false) :
    LexesTo w (w.map fun c => .atom (.lit c)) := by
  induction w with
  | nil => exact LexesTo.nil
  | cons c cs ih =>
    have h1 := LexesTo.plain (hw c (List.mem_cons_self _ _))
    have h2 := ih fun x hx => hw x (List.mem_cons_of_mem _ hx)
    exact LexesTo.append h1 h2

theorem LexesTo.slash : LexesTo ['\\', '/'] [.atom (.lit '/')] := by
  intro rest
  have : isEscapable '/' = true := by decide
  simp [lexRun, lexStep, lexNormal, this, Function.comp_def]

theorem LexesTo.bol : LexesTo ['^'] [.atom .bol] := by
  intro rest
  simp [lexRun, lexStep, lexNormal]

theorem LexesTo.eol : LexesTo ['$'] [.atom .eol] := by
  intro rest
  simp [lexRun, lexStep, lexNormal]

theorem LexesTo.wild : LexesTo routerRegexReplace.data PatItem.wild.toks := by
  intro rest
  simp [routerRegexReplace, lexRun, lexStep, lexNormal, lexClsItem, PatItem.toks, tokenRanges,
    Function.comp_def]

theorem LexesTo.items {txt : List Char} {its : List PatItem}
    (h : LexesTo txt (its.flatMap PatItem.toks)) :
    lexRun .normal ('^' :: (txt ++ ['$'])) =
      some (.atom .bol :: (its.flatMap PatItem.toks ++ [.atom .eol])) := by
  have h1 := LexesTo.append LexesTo.bol (LexesTo.append h LexesTo.eol)
  have h2 := h1 []
  simpa [lexRun] using h2

theorem mkSeq_eq_seqOf (items : List Regex) : mkSeq items = seqOf items.reverse := by
  simp [mkSeq, seqOf, List.foldr_reverse]

theorem parseRun_items (its : List PatItem) (items : List Regex) (rs : RepState) :
    parseRun [] [] items rs (its.flatMap PatItem.toks ++ [.atom .eol]) =
      some (seqOf (items.reverse ++ (its.map PatItem.regex ++ [Regex.eol]))) := by
  induction its generalizing items rs with
  | nil =>
    simp [parseRun, mkAlt, mkSeq_eq_seqOf]
  | cons it its ih =>
    cases it with
    | lit c =>
      have e : (PatItem.lit c :: its).flatMap PatItem.toks ++ [Token.atom Regex.eol] =
          .atom (.lit c) :: (its.flatMap PatItem.toks ++ [.atom .eol]) := by
        simp [PatItem.toks]
      rw [e]
      show parseRun [] [] (Regex.lit c :: items) .fresh
        (its.flatMap PatItem.toks ++ [.atom .eol]) = _
      rw [ih]
      simp [PatItem.regex]
    | wild =>
      have e : (PatItem.wild :: its).flatMap PatItem.toks ++ [Token.atom Regex.eol] =
          .atom (.cls false tokenRanges) :: .rep .star ::
            (its.flatMap PatItem.toks ++ [.atom .eol]) := by
        simp [PatItem.toks]
      rw [e]
      show parseRun [] [] (Regex.star (.cls false tokenRanges) :: items) .afterRep
        (its.flatMap PatItem.toks ++ [.atom .eol]) = _
      rw [ih]
      simp [PatItem.regex]

/-- Compilation and matching of an anchored pattern whose body is scanned into
the tokens of a list of items. -/
theorem matchString_items {txt : List Char} {its : List PatItem}
    (h : LexesTo txt (its.flatMap PatItem.toks)) (s : String) :
    ∃ b, regexpMatchString (String.mk ('^' :: (txt ++ ['$']))) s = some b ∧
      (b = true ↔ ItemsMatch its s.data) := by
  refine ⟨_, ?_, search_anchored_items its s.data⟩
  simp only [regexpMatchString, regexpCompile, LexesTo.items h, parseRun]
  rw [parseRun_items]
  simp

theorem itemsMatch_lits (w s : List Char) :
    ItemsMatch (w.map PatItem.lit) s ↔ s = w := by
  induction w generalizing s with
  | nil => simp [ItemsMatch]
  | cons c cs ih =>
    simp only [List.map_cons, ItemsMatch, ih]
    constructor
    · rintro ⟨v, rfl, rfl⟩
      rfl
    · rintro rfl
      exact ⟨cs, rfl, rfl⟩

theorem toks_lits (w : List Char) :
    (w.map PatItem.lit).flatMap PatItem.toks = w.map fun c => Token.atom (.lit c) := by
  induction w with
  | nil => rfl
  | cons c cs ih => simp [PatItem.toks, ih]

theorem option_bool_of_iff {o : Option Bool} {p : Prop} [Decidable p]
    (h : ∃ b, o = some b ∧ (b = true ↔ p)) : o = some (decide p) := by
  obtain ⟨b, rfl, hb⟩ := h
  cases b <;> simp_all

/-! ## Lemmas: splitting and the pattern compiler -/

theorem splitChars_ne_nil (sep : Char) (s : List Char) : splitChars sep s ≠ [] := by
  cases s with
  | nil => simp [splitChars]
  | cons c cs =>
    simp only [splitChars]
    split
    · simp
    · split <;> simp

theorem splitChars_cons_sep (sep : Char) (s : List Char) :
    splitChars sep (sep :: s) = [] :: splitChars sep s := by
  simp [splitChars]

theorem splitChars_cons_other {sep c : Char} (h : c ≠ sep) (s : List Char) :
    ∃ seg segs, splitChars sep s = seg :: segs ∧
      splitChars sep (c :: s) = (c :: seg) :: segs := by
  cases hs : splitChars sep s with
  | nil => exact absurd hs (splitChars_ne_nil sep s)
  | cons seg segs => exact ⟨seg, segs, rfl, by simp [splitChars, h, hs]⟩

theorem not_mem_of_mem_splitChars (sep : Char) (s seg : List Char)
    (h : seg ∈ splitChars sep s) : sep ∉ seg := by
  induction s generalizing seg with
  | nil =>
    simp only [splitChars, List.mem_singleton] at h
    subst h
    simp
  | cons c cs ih =>
    by_cases hc : c = sep
    · subst hc
      rw [splitChars_cons_sep] at h
      rcases List.mem_cons.1 h with rfl | h
      · simp
      · exact ih seg h
    · obtain ⟨seg0, segs, h0, h1⟩ := splitChars_cons_other hc cs
      rw [h1] at h
      rw [h0] at ih
      rcases List.mem_cons.1 h with rfl | h
      · intro hmem
        rcases List.mem_cons.1 hmem with e | hmem
        · exact hc e.symm
        · exact ih seg0 (List.mem_cons_self _ _) hmem
      · exact ih seg (List.mem_cons_of_mem _ h)

theorem splitChars_append (sep : Char) (a b : List Char) :
    splitChars sep (a ++ sep :: b) = splitChars sep a ++ splitChars sep b := by
  induction a with
  | nil => simp [splitChars]
  | cons c cs ih =>
    by_cases hc : c = sep
    · subst hc
      simp only [List.cons_append, splitChars_cons_sep, ih]
    · obtain ⟨seg0, segs, h0, h1⟩ := splitChars_cons_other hc cs
      obtain ⟨seg2, segs2, h2, h3⟩ := splitChars_cons_other hc (cs ++ sep :: b)
      rw [List.cons_append, h3, h1]
      rw [h0, h2] at ih
      simp only [List.cons_append, List.cons.injEq] at ih
      obtain ⟨e1, e2⟩ := ih
      subst e1
      simp [e2]

theorem splitChars_of_not_mem (sep : Char) (r : List Char) (h : sep ∉ r) :
    splitChars sep r = [r] := by
  induction r with
  | nil => rfl
  | cons c cs ih =>
    have hc : c ≠ sep := fun e => h (by simp [e])
    have := ih fun hm => h (List.mem_cons_of_mem _ hm)
    simp [splitChars, hc, this]

theorem splitChars_flatMap (sep : Char) (r : List Char) (rs : List (List Char))
    (hr : sep ∉ r) (hrs : ∀ x ∈ rs, sep ∉ x) :
    splitChars sep (r ++ rs.flatMap (sep :: ·)) = r :: rs := by
  induction rs generalizing r with
  | nil => simpa using splitChars_of_not_mem sep r hr
  | cons x xs ih =>
    have e : r ++ (x :: xs).flatMap (sep :: ·) = r ++ sep :: (x ++ xs.flatMap (sep :: ·)) := by
      simp
    rw [e, splitChars_append, splitChars_of_not_mem sep r hr,
      ih x (hrs x (List.mem_cons_self _ _)) fun y hy => hrs y (List.mem_cons_of_mem _ hy)]
    rfl

theorem flatMap_splitChars (sep : Char) (s : List Char) :
    (splitChars sep s).flatMap (sep :: ·) = sep :: s := by
  induction s with
  | nil => rfl
  | cons c cs ih =>
    by_cases hc : c = sep
    · subst hc
      rw [splitChars_cons_sep, List.flatMap_cons, ih]
      rfl
    · obtain ⟨seg0, segs, h0, h1⟩ := splitChars_cons_other hc cs
      rw [h1]
      rw [h0] at ih
      simp only [List.flatMap_cons, List.cons_append, List.cons.injEq, true_and] at ih ⊢
      exact ih

theorem stringsContains_iff (s : String) (c : Char) :
    stringsContains s c = true ↔ c ∈ s.data := by
  simp [stringsContains]

theorem foldl_findAndReplaceStep (segs : List (List Char)) (acc : String) :
    ((segs.map String.mk).foldl findAndReplaceStep acc).data =
      acc.data ++ segs.flatMap fun d =>
        if d = [] then [] else '/' :: (if ':' ∈ d then routerRegexReplace.data else d) := by
  induction segs generalizing acc with
  | nil => simp
  | cons d ds ih =>
    simp only [List.map_cons, List.foldl_cons, ih, List.flatMap_cons]
    have hd : (String.mk d = "") ↔ d = [] := by
      rw [String.ext_iff]
    by_cases h1 : d = []
    · simp [findAndReplaceStep, h1]
    · by_cases h2 : ':' ∈ d
      · simp [findAndReplaceStep, hd, h1, h2, stringsContains]
      · simp [findAndReplaceStep, hd, h1, h2, stringsContains]

theorem findAndReplace_wild (path : String) (h : stringsContains path ':' = true) :
    findAndReplace path =
      String.mk ('^' :: ((splitChars '/' path.data).flatMap segText ++ ['$'])) := by
  simp only [findAndReplace, h, Bool.not_true, Bool.false_eq_true, if_false, stringsSplit,
    stringsReplaceAll]
  apply String.ext
  simp only [String.data_append, foldl_findAndReplaceStep]
  have hfrag : (routerRegexReplace.data.flatMap fun c => if c = '/' then "\\/".data else [c]) =
      routerRegexReplace.data := by decide
  have hid : ∀ d : List Char, '/' ∉ d →
      (d.flatMap fun c => if c = '/' then "\\/".data else [c]) = d := by
    intro d hd
    induction d with
    | nil => rfl
    | cons c cs ih =>
      have hc : c ≠ '/' := fun e => hd (by simp [e])
      simp only [List.flatMap_cons, hc, if_false]
      rw [ih fun hm => hd (List.mem_cons_of_mem _ hm)]
      rfl
  have hseg : ∀ segs : List (List Char), (∀ d ∈ segs, '/' ∉ d) →
      ((segs.flatMap fun d =>
        if d = [] then [] else '/' :: (if ':' ∈ d then routerRegexReplace.data else d)).flatMap
          fun c => if c = '/' then "\\/".data else [c]) = segs.flatMap segText := by
    intro segs hsegs
    induction segs with
    | nil => rfl
    | cons d ds ih =>
      rw [List.flatMap_cons, List.flatMap_append, ih fun x hx => hsegs x (List.mem_cons_of_mem _ hx),
        List.flatMap_cons]
      congr 1
      by_cases h1 : d = []
      · simp [segText, h1]
      · by_cases h2 : ':' ∈ d
        · simp only [segText, h1, h2, if_true, if_false, List.flatMap_cons, hfrag]
          rfl
        · simp only [segText, h1, h2, if_false, List.flatMap_cons,
            hid d (hsegs d (List.mem_cons_self _ _))]
          rfl
  have := hseg (splitChars '/' path.data) fun d hd => not_mem_of_mem_splitChars '/' _ d hd
  simp only [String.data_append] at this ⊢
  simpa using this

theorem lexesTo_segText (d : List Char) (h : ':' ∈ d ∨ ∀ c ∈ d, isMeta c = false) :
    LexesTo (segText d) ((segItems d).flatMap PatItem.toks) := by
  by_cases h1 : d = []
  · simp only [segText, segItems, h1, if_true, List.flatMap_nil]
    exact LexesTo.nil
  · by_cases h2 : ':' ∈ d
    · simp only [segText, segItems, h1, h2, if_true, if_false]
      have := LexesTo.append LexesTo.slash LexesTo.wild
      simpa [PatItem.toks] using this
    · have hp : ∀ c ∈ d, isMeta c = false := h.resolve_left h2
      simp only [segText, segItems, h1, h2, if_false]
      have := LexesTo.append LexesTo.slash (LexesTo.plainWord hp)
      rw [List.flatMap_cons, toks_lits]
      simpa [PatItem.toks] using this

theorem lexesTo_segs (ds : List (List Char))
    (h : ∀ d ∈ ds, ':' ∈ d ∨ ∀ c ∈ d, isMeta c = false) :
    LexesTo (ds.flatMap segText) ((ds.flatMap segItems).flatMap PatItem.toks) := by
  induction ds with
  | nil => exact LexesTo.nil
  | cons d ds ih =>
    rw [List.flatMap_cons, List.flatMap_cons, List.flatMap_append]
    exact LexesTo.append (lexesTo_segText d (h d (List.mem_cons_self _ _)))
      (ih fun x hx => h x (List.mem_cons_of_mem _ hx))

theorem itemsMatch_cons_lit (c : Char) (its : List PatItem) (w : List Char) :
    ItemsMatch (.lit c :: its) w ↔ ∃ v, w = c :: v ∧ ItemsMatch its v :=
  Iff.rfl

theorem itemsMatch_cons_wild (its : List PatItem) (w : List Char) :
    ItemsMatch (.wild :: its) w ↔
      ∃ u v, w = u ++ v ∧ (∀ c ∈ u, isTokenChar c = true) ∧ ItemsMatch its v :=
  Iff.rfl

theorem itemsMatch_nil (w : List Char) : ItemsMatch [] w ↔ w = [] :=
  Iff.rfl

theorem itemsMatch_append (a b : List PatItem) (w : List Char) :
    ItemsMatch (a ++ b) w ↔ ∃ u v, w = u ++ v ∧ ItemsMatch a u ∧ ItemsMatch b v := by
  induction a generalizing w with
  | nil =>
    simp only [List.nil_append, itemsMatch_nil]
    constructor
    · intro h
      exact ⟨[], w, rfl, rfl, h⟩
    · rintro ⟨u, v, rfl, rfl, h⟩
      exact h
  | cons it a ih =>
    cases it with
    | lit c =>
      rw [List.cons_append, itemsMatch_cons_lit]
      simp only [ih, itemsMatch_cons_lit]
      constructor
      · rintro ⟨v, rfl, u, v2, rfl, h1, h2⟩
        exact ⟨c :: u, v2, rfl, ⟨u, rfl, h1⟩, h2⟩
      · rintro ⟨u, v, rfl, ⟨u2, rfl, h1⟩, h2⟩
        exact ⟨u2 ++ v, rfl, u2, v, rfl, h1, h2⟩
    | wild =>
      rw [List.cons_append, itemsMatch_cons_wild]
      simp only [ih, itemsMatch_cons_wild]
      constructor
      · rintro ⟨x, v, rfl, hx, u, v2, rfl, h1, h2⟩
        exact ⟨x ++ u, v2, by simp, ⟨x, u, rfl, hx, h1⟩, h2⟩
      · rintro ⟨u, v, rfl, ⟨x, u2, rfl, hx, h1⟩, h2⟩
        exact ⟨x, u2 ++ v, by simp, hx, u2, v, rfl, h1, h2⟩

theorem itemsMatch_segItems (d : List Char) (hd : d ≠ []) (w : List Char) :
    ItemsMatch (segItems d) w ↔ ∃ r, w = '/' :: r ∧ SegOK d r := by
  by_cases h2 : ':' ∈ d
  · have e : segItems d = [.lit '/', .wild] := by simp [segItems, hd, h2]
    rw [e, itemsMatch_cons_lit]
    simp only [itemsMatch_cons_wild, itemsMatch_nil, SegOK, h2, if_true]
    constructor
    · rintro ⟨v, rfl, u, v2, rfl, hu, rfl⟩
      exact ⟨u, by simp, hu⟩
    · rintro ⟨r, rfl, hr⟩
      exact ⟨r, rfl, r, [], by simp, hr, rfl⟩
  · have e : segItems d = .lit '/' :: d.map .lit := by simp [segItems, hd, h2]
    rw [e, itemsMatch_cons_lit]
    simp only [itemsMatch_lits, SegOK, h2, if_false]

theorem itemsMatch_segs (ds : List (List Char)) (w : List Char) :
    ItemsMatch (ds.flatMap segItems) w ↔
      ∃ rs, List.Forall₂ SegOK (ds.filter fun d => d ≠ []) rs ∧
        w = rs.flatMap ('/' :: ·) := by
  induction ds generalizing w with
  | nil =>
    simp only [List.flatMap_nil, itemsMatch_nil, List.filter_nil, List.forall₂_nil_left_iff]
    constructor
    · rintro rfl
      exact ⟨[], rfl, rfl⟩
    · rintro ⟨rs, rfl, rfl⟩
      rfl
  | cons d ds ih =>
    rw [List.flatMap_cons, itemsMatch_append]
    by_cases hd : d = []
    · subst hd
      have e : segItems [] = [] := rfl
      simp only [e, itemsMatch_nil, ih, List.filter_cons, ne_eq, not_true_eq_false,
        decide_False, Bool.false_eq_true, if_false]
      constructor
      · rintro ⟨u, v, rfl, rfl, h⟩
        exact h
      · intro h
        exact ⟨[], w, rfl, rfl, h⟩
    · simp only [List.filter_cons, ne_eq, hd, not_false_eq_true, decide_True, if_true,
        List.forall₂_cons_left_iff, itemsMatch_segItems d hd, ih]
      constructor
      · rintro ⟨u, v, rfl, ⟨r, rfl, hr⟩, rs, hrs, rfl⟩
        exact ⟨r :: rs, ⟨r, rs, hr, hrs, rfl⟩, by simp⟩
      · rintro ⟨rs0, ⟨r, rs, hr, hrs, rfl⟩, rfl⟩
        exact ⟨'/' :: r, rs.flatMap ('/' :: ·), by simp, ⟨r, rfl, hr⟩, rs, hrs, rfl⟩

/-- Matching against the pattern of a declared path that has a wildcard and whose
other pieces are free of special characters: the request path is a sequence of
pieces, each preceded by a slash, that agree one by one with the non-empty pieces of
the declared path. -/
theorem matchString_wild (path request : String) (hcolon : stringsContains path ':' = true)
    (hplain : ∀ d ∈ splitChars '/' path.data, ':' ∈ d ∨ ∀ c ∈ d, isMeta c = false) :
    ∃ b, regexpMatchString (findAndReplace path) request = some b ∧
      (b = true ↔ ∃ rs,
        List.Forall₂ SegOK ((splitChars '/' path.data).filter fun d => d ≠ []) rs ∧
          request.data = rs.flatMap ('/' :: ·)) := by
  rw [findAndReplace_wild path hcolon]
  obtain ⟨b, hb, hiff⟩ := matchString_items (lexesTo_segs _ hplain) request
  exact ⟨b, hb, by rw [hiff, itemsMatch_segs]⟩

/-! ## Claims about the pattern compiler -/

/-- C1 (as stated, refuted): the declared path `/a.b` has no `:`, yet its compiled
pattern also matches the request path `/axb`, which is another path. -/
theorem C1_counterexample :
    stringsContains "/a.b" ':' = false ∧
      regexpMatchString (findAndReplace "/a.b") "/axb" = some true ∧
      ("/axb" : String) ≠ "/a.b" := by
  decide

/-- C1 (amended): for every declared path that contains no `:` and no character
that is special in a pattern, the compiled pattern matches a request path exactly
when the request path is that very path. -/
theorem C1_literal_pattern_exact (path request : String)
    (hcolon : stringsContains path ':' = false)
    (hplain : ∀ c ∈ path.data, isMeta c = false) :
    regexpMatchString (findAndReplace path) request = some (decide (request = path)) := by
  have hpat : findAndReplace path = String.mk ('^' :: (path.data ++ ['$'])) := by
    simp only [findAndReplace, hcolon]
    apply String.ext
    simp
  rw [hpat]
  apply option_bool_of_iff
  have hlex : LexesTo path.data ((path.data.map PatItem.lit).flatMap PatItem.toks) := by
    rw [toks_lits]
    exact LexesTo.plainWord hplain
  obtain ⟨b, hb, hiff⟩ := matchString_items hlex request
  refine ⟨b, hb, ?_⟩
  rw [hiff, itemsMatch_lits]
  exact String.ext_iff.symm

/-- C1 (amended), at `/auth`: the pattern matches `/auth` and matches neither
`/authorize` nor `/auth/`. -/
theorem C1_literal_pattern_exact_witness :
    regexpMatchString (findAndReplace "/auth") "/auth" = some (decide (("/auth" : String) = "/auth")) ∧
      regexpMatchString (findAndReplace "/auth") "/authorize" = some false ∧
      regexpMatchString (findAndReplace "/auth") "/auth/" = some false :=
  ⟨C1_literal_pattern_exact "/auth" "/auth" (by decide) (by decide), by decide, by decide⟩

/-- C2 (as stated, refuted): the fragment also matches the EMPTY string, so the
pattern compiled for `/name/:name` does match the request path `/name/`. -/
theorem C2_counterexample :
    stringsContains "/name/:name" ':' = true ∧
      regexpMatchString (findAndReplace "/name/:name") "/name/" = some true := by
  decide

/-- C2 (amended): for every declared path containing a wildcard, `findAndReplace`
writes the fragment `routerRegexReplace` in place of each piece that contains `:`;
the fragment, anchored, matches exactly the strings of ZERO or more characters among
ASCII letters, digits, underscore and hyphen; hence the pattern compiled for
`/name/:name` matches `/name/`, whose wildcard piece is empty. -/
theorem C2_wildcard_fragment_zero_or_more (path : String)
    (hcolon : stringsContains path ':' = true) :
    findAndReplace path =
        "^" ++ String.join ((stringsSplit path '/').map segmentPattern) ++ "$" ∧
      (∀ s : String, regexpMatchString ("^" ++ routerRegexReplace ++ "$") s =
        some (s.data.all isTokenChar)) ∧
      regexpMatchString (findAndReplace "/name/:name") "/name/" = some true := by
  refine ⟨?_, ?_, by decide⟩
  · rw [findAndReplace_wild path hcolon]
    apply String.ext
    simp only [String.data_append, String.data_join, stringsSplit, List.map_map]
    have : ∀ segs : List (List Char),
        (segs.map (String.data ∘ segmentPattern ∘ String.mk)).flatten = segs.flatMap segText := by
      intro segs
      induction segs with
      | nil => rfl
      | cons d ds ih =>
        rw [List.map_cons, List.flatten_cons, ih, List.flatMap_cons]
        congr 1
        have hd : (String.mk d = "") ↔ d = [] := by
          rw [String.ext_iff]
        by_cases h1 : d = []
        · simp [segmentPattern, segText, h1]
        · by_cases h2 : ':' ∈ d
          · simp [segmentPattern, segText, hd, h1, h2, stringsContains]
          · simp [segmentPattern, segText, hd, h1, h2, stringsContains]
    rw [this]
    simp
  · intro s
    have hpat : "^" ++ routerRegexReplace ++ "$" =
        String.mk ('^' :: (routerRegexReplace.data ++ ['$'])) := by
      decide
    rw [hpat]
    have hlex : LexesTo routerRegexReplace.data ([PatItem.wild].flatMap PatItem.toks) := by
      simpa using LexesTo.wild
    obtain ⟨b, hb, hiff⟩ := matchString_items hlex s
    rw [hb]
    congr 1
    rw [Bool.eq_iff_iff, hiff, List.all_eq_true]
    simp only [ItemsMatch]
    constructor
    · rintro ⟨u, v, huv, hu, rfl⟩
      simpa [huv] using hu
    · intro h
      exact ⟨s.data, [], by simp, h, rfl⟩

/-- C2 (amended), at `/name/:name`. -/
theorem C2_wildcard_fragment_zero_or_more_witness :
    stringsContains "/name/:name" ':' = true ∧
      findAndReplace "/name/:name" =
        "^" ++ String.join ((stringsSplit "/name/:name" '/').map segmentPattern) ++ "$" ∧
      regexpMatchString ("^" ++ routerRegexReplace ++ "$") "" = some true :=
  ⟨by decide, (C2_wildcard_fragment_zero_or_more "/name/:name" (by decide)).1,
    (C2_wildcard_fragment_zero_or_more "/name/:name" (by decide)).2.1 ""⟩

/-- C3 (as stated, refuted): a declared path without `:` is not compiled piece by
piece, and the doubled slash of `/auth//login` stays in its pattern. -/
theorem C3_counterexample :
    findAndReplace "/auth//login" = "^/auth//login$" ∧
      findAndReplace "/auth/login" = "^/auth/login$" ∧
      findAndReplace "/auth//login" ≠ findAndReplace "/auth/login" := by
  decide

/-- C3 (amended): for every declared path that contains a `:`, the empty pieces
produced by leading, trailing or doubled slashes are dropped: writing one more `/`
next to a `/`, at the beginning or at the end of the path does not change the
compiled pattern. -/
theorem C3_empty_segments_dropped (a b : String)
    (hcolon : stringsContains (a ++ b) ':' = true) :
    findAndReplace (a ++ "//" ++ b) = findAndReplace (a ++ "/" ++ b) ∧
      findAndReplace ("/" ++ (a ++ b)) = findAndReplace (a ++ b) ∧
      findAndReplace ((a ++ b) ++ "/") = findAndReplace (a ++ b) := by
  have hmem : ':' ∈ a.data ∨ ':' ∈ b.data := by
    simpa [stringsContains] using hcolon
  have h1 : stringsContains (a ++ "//" ++ b) ':' = true := by
    simp only [stringsContains_iff, String.data_append, List.mem_append]
    tauto
  have h2 : stringsContains (a ++ "/" ++ b) ':' = true := by
    simp only [stringsContains_iff, String.data_append, List.mem_append]
    tauto
  have h3 : stringsContains ("/" ++ (a ++ b)) ':' = true := by
    simp only [stringsContains_iff, String.data_append, List.mem_append]
    tauto
  have h4 : stringsContains ((a ++ b) ++ "/") ':' = true := by
    simp only [stringsContains_iff, String.data_append, List.mem_append]
    tauto
  have e1 : (a ++ "//" ++ b).data = a.data ++ '/' :: ([] ++ '/' :: b.data) := by
    simp [String.data_append]
  have e2 : (a ++ "/" ++ b).data = a.data ++ '/' :: b.data := by
    simp [String.data_append]
  have e3 : ("/" ++ (a ++ b)).data = [] ++ '/' :: (a ++ b).data := rfl
  have e4 : ((a ++ b) ++ "/").data = (a ++ b).data ++ '/' :: [] := by
    simp [String.data_append]
  rw [findAndReplace_wild _ h1, findAndReplace_wild _ h2, findAndReplace_wild _ h3,
    findAndReplace_wild _ h4, findAndReplace_wild _ hcolon, e1, e2, e3, e4]
  simp only [splitChars_append, List.flatMap_append]
  simp [splitChars, segText]

/-- C3 (amended), at `/auth//:id`. -/
theorem C3_empty_segments_dropped_witness :
    stringsContains ("/auth/" ++ ":id") ':' = true ∧
      findAndReplace ("/auth/" ++ "//" ++ ":id") = findAndReplace ("/auth/" ++ "/" ++ ":id") ∧
      findAndReplace "/auth//:id" = findAndReplace "/auth/:id" :=
  ⟨by decide, (C3_empty_segments_dropped "/auth/" ":id" (by decide)).1, by decide⟩

/-! ## Claims about parameter extraction -/

theorem extractParamLoop_not_mem (req : List String) (p : String) (k : Nat) (vs : List String)
    (h : p ∉ vs) : extractParamLoop req p k vs = some "" := by
  induction vs generalizing k with
  | nil => rfl
  | cons v vs ih =>
    have hv : v ≠ p := fun e => h (by simp [e])
    simp only [extractParamLoop, hv, if_false]
    exact ih (k + 1) fun hm => h (List.mem_cons_of_mem _ hm)

theorem extractParamLoop_mem (req : List String) (p : String) (k : Nat) (vs : List String)
    (h : p ∈ vs) :
    ∃ i : Nat, vs[i]? = some p ∧ (∀ j : Nat, j < i → vs[j]? ≠ some p) ∧
      extractParamLoop req p k vs = req[k + i]? := by
  induction vs generalizing k with
  | nil => simp at h
  | cons v vs ih =>
    by_cases hv : v = p
    · subst hv
      exact ⟨0, by simp, fun j hj => absurd hj (Nat.not_lt_zero j), by simp [extractParamLoop]⟩
    · have hm : p ∈ vs := by
        rcases List.mem_cons.1 h with e | hm
        · exact absurd e.symm hv
        · exact hm
      obtain ⟨i, h1, h2, h3⟩ := ih (k + 1) hm
      refine ⟨i + 1, by simpa using h1, ?_, ?_⟩
      · intro j hj
        cases j with
        | zero => simpa using hv
        | succ j => simpa using h2 j (by omega)
      · simp only [extractParamLoop, hv, if_false, h3]
        congr 1
        omega

/-- C6: `extractParamFromPath` never panics; it returns the empty string when the
two paths split on `/` into different numbers of pieces, and when no piece of
`routerPath` equals `:` followed by `paramName`; otherwise it returns the piece of
the request path at the index of the first such piece of `routerPath`. -/
theorem C6_extractParamFromPath_cases (routerPath requestPath paramName : String) :
    ((stringsSplit routerPath '/').length ≠ (stringsSplit requestPath '/').length →
        extractParamFromPath routerPath requestPath paramName = some "") ∧
      ((":" ++ paramName) ∉ stringsSplit routerPath '/' →
        extractParamFromPath routerPath requestPath paramName = some "") ∧
      ((stringsSplit routerPath '/').length = (stringsSplit requestPath '/').length →
        (":" ++ paramName) ∈ stringsSplit routerPath '/' →
        ∃ (k : Nat) (seg : String),
          (stringsSplit routerPath '/')[k]? = some (":" ++ paramName) ∧
          (∀ j : Nat, j < k → (stringsSplit routerPath '/')[j]? ≠ some (":" ++ paramName)) ∧
          (stringsSplit requestPath '/')[k]? = some seg ∧
          extractParamFromPath routerPath requestPath paramName = some seg) := by
  refine ⟨?_, ?_, ?_⟩
  · intro h
    simp [extractParamFromPath, h]
  · intro h
    simp only [extractParamFromPath]
    split
    · rfl
    · exact extractParamLoop_not_mem _ _ _ _ h
  · intro hlen hmem
    obtain ⟨i, h1, h2, h3⟩ :=
      extractParamLoop_mem (stringsSplit requestPath '/') (":" ++ paramName) 0 _ hmem
    have hi : i < (stringsSplit requestPath '/').length := by
      rw [← hlen]
      exact (List.getElem?_eq_some.1 h1).1
    refine ⟨i, (stringsSplit requestPath '/')[i], h1, h2, List.getElem?_eq_getElem hi, ?_⟩
    simp only [extractParamFromPath, hlen, ne_eq, not_true_eq_false, if_false, h3, Nat.zero_add]
    exact List.getElem?_eq_getElem hi

/-- C6, at concrete paths: a length mismatch, an absent name, and a present name. -/
theorem C6_extractParamFromPath_cases_witness :
    extractParamFromPath "/auth/:name" "/auth/madhuri/32" "name" = some "" ∧
      extractParamFromPath "/auth/:name" "/auth/madhuri" "age" = some "" ∧
      extractParamFromPath "/auth/:name" "/auth/madhuri" "name" = some "madhuri" :=
  ⟨(C6_extractParamFromPath_cases "/auth/:name" "/auth/madhuri/32" "name").1 (by decide),
    (C6_extractParamFromPath_cases "/auth/:name" "/auth/madhuri" "age").2.1 (by decide),
    by decide⟩

/-! ## Claims about matching a declared path with a wildcard -/

theorem mem_of_mem_splitChars (sep : Char) (s seg : List Char) (c : Char)
    (hseg : seg ∈ splitChars sep s) (hc : c ∈ seg) (hne : c ≠ sep) : c ∈ s := by
  have h : c ∈ (splitChars sep s).flatMap (sep :: ·) :=
    List.mem_flatMap.2 ⟨seg, hseg, List.mem_cons_of_mem _ hc⟩
  rw [flatMap_splitChars] at h
  rcases List.mem_cons.1 h with e | h
  · exact absurd e hne
  · exact h

theorem splitChars_of_stringsSplit {s : String} {l : List String}
    (h : stringsSplit s '/' = l) : splitChars '/' s.data = l.map String.data := by
  rw [← h, stringsSplit, List.map_map]
  simp [Function.comp_def]

theorem segOK_of_segmentAgrees {d r : String} (h : segmentAgrees d r) : SegOK d.data r.data := by
  unfold segmentAgrees at h
  unfold SegOK
  by_cases hc : ':' ∈ d.data
  · have hc2 : stringsContains d ':' = true := (stringsContains_iff d ':').2 hc
    simp only [hc, if_true]
    simp only [hc2, if_true, isTokenString, List.all_eq_true] at h
    exact h
  · have hc2 : ¬ stringsContains d ':' = true := fun e => hc ((stringsContains_iff d ':').1 e)
    simp only [hc, if_false]
    simp only [hc2, if_false] at h
    rw [h]

theorem segmentAgrees_of_segOK {d : String} {r : List Char} (h : SegOK d.data r) :
    segmentAgrees d (String.mk r) := by
  unfold segmentAgrees
  unfold SegOK at h
  by_cases hc : ':' ∈ d.data
  · have hc2 : stringsContains d ':' = true := (stringsContains_iff d ':').2 hc
    simp only [hc, if_true] at h
    simp only [hc2, if_true, isTokenString, List.all_eq_true]
    exact h
  · have hc2 : ¬ stringsContains d ':' = true := fun e => hc ((stringsContains_iff d ':').1 e)
    simp only [hc, if_false] at h
    simp only [hc2, if_false]
    exact String.ext h

/-- Shape of the pieces of a declared path that begins with a slash, has no other
empty piece, and whose literal pieces are free of special characters. -/
theorem declared_shape {declared : String} {ds : List String}
    (hd : stringsSplit declared '/' = "" :: ds) (hne : ∀ d ∈ ds, d ≠ "")
    (hplain : ∀ d ∈ ds, stringsContains d ':' = false → isPlainString d = true) :
    splitChars '/' declared.data = [] :: ds.map String.data ∧
      ((splitChars '/' declared.data).filter fun d => d ≠ []) = ds.map String.data ∧
      ∀ d ∈ splitChars '/' declared.data, ':' ∈ d ∨ ∀ c ∈ d, isMeta c = false := by
  have h1 : splitChars '/' declared.data = [] :: ds.map String.data := by
    rw [splitChars_of_stringsSplit hd]
    rfl
  refine ⟨h1, ?_, ?_⟩
  · rw [h1]
    have : ∀ l : List String, (∀ d ∈ l, d ≠ "") →
        (l.map String.data).filter (fun d => d ≠ []) = l.map String.data := by
      intro l hl
      apply List.filter_eq_self.2
      intro x hx
      obtain ⟨d, hd1, rfl⟩ := List.mem_map.1 hx
      have : d.data ≠ [] := fun e => hl d hd1 (String.ext e)
      simpa using this
    simpa using this ds hne
  · intro d hdm
    rw [h1] at hdm
    rcases List.mem_cons.1 hdm with rfl | hdm
    · right
      simp
    · obtain ⟨x, hx, rfl⟩ := List.mem_map.1 hdm
      by_cases hc : ':' ∈ x.data
      · exact Or.inl hc
      · right
        have hc2 : stringsContains x ':' = false := by
          rw [Bool.eq_false_iff]
          exact fun e => hc ((stringsContains_iff x ':').1 e)
        have := hplain x hx hc2
        simp only [isPlainString, List.all_eq_true, Bool.not_eq_true'] at this
        exact this

/-- C4 (as stated, refuted): `/name/:name/` and `/name/bob/` split into the same
number of pieces, with equal literal pieces and the token `bob` at the wildcard, yet
the pattern does not match, because the empty last piece is dropped from it; and
`/a+b/:x` against `/a+b/bob` does not match, because `+` is read as an operator. -/
theorem C4_counterexample :
    (stringsSplit "/name/:name/" '/' = ["", "name", ":name", ""] ∧
      stringsSplit "/name/bob/" '/' = ["", "name", "bob", ""] ∧
      isTokenString "bob" = true ∧
      regexpMatchString (findAndReplace "/name/:name/") "/name/bob/" = some false) ∧
    (stringsSplit "/a+b/:x" '/' = ["", "a+b", ":x"] ∧
      stringsSplit "/a+b/bob" '/' = ["", "a+b", "bob"] ∧
      regexpMatchString (findAndReplace "/a+b/:x") "/a+b/bob" = some false) := by
  decide

/-- C4 (amended): for every declared path that begins with `/`, has no other empty
piece, has exactly one wildcard piece, and whose literal pieces are free of special
characters, and every request path with the same number of pieces, the same literal
pieces at the literal positions and a piece of token characters at the wildcard
position, the compiled pattern of the declared path matches the request path. -/
theorem C4_single_wildcard_matches (declared request : String) (ds rs : List String)
    (hd : stringsSplit declared '/' = "" :: ds)
    (hne : ∀ d ∈ ds, d ≠ "")
    (hplain : ∀ d ∈ ds, stringsContains d ':' = false → isPlainString d = true)
    (hone : (ds.filter fun d => stringsContains d ':').length = 1)
    (hr : stringsSplit request '/' = "" :: rs)
    (hseg : List.Forall₂ segmentAgrees ds rs) :
    regexpMatchString (findAndReplace declared) request = some true := by
  obtain ⟨h1, h2, h3⟩ := declared_shape hd hne hplain
  have hcolon : stringsContains declared ':' = true := by
    have hex : ∃ d, d ∈ ds.filter fun d => stringsContains d ':' := by
      cases hf : ds.filter fun d => stringsContains d ':' with
      | nil => simp [hf] at hone
      | cons d l => exact ⟨d, List.mem_cons_self _ _⟩
    obtain ⟨d, hdm⟩ := hex
    obtain ⟨hd1, hd2⟩ := List.mem_filter.1 hdm
    rw [stringsContains_iff] at hd2 ⊢
    refine mem_of_mem_splitChars '/' declared.data d.data ':' ?_ hd2 (by decide)
    rw [h1]
    exact List.mem_cons_of_mem _ (List.mem_map.2 ⟨d, hd1, rfl⟩)
  obtain ⟨b, hb, hiff⟩ := matchString_wild declared request hcolon h3
  rw [hb]
  congr 1
  rw [hiff, h2]
  refine ⟨rs.map String.data, ?_, ?_⟩
  · rw [List.forall₂_map_left_iff, List.forall₂_map_right_iff]
    exact hseg.imp fun d r h => segOK_of_segmentAgrees h
  · have h4 := flatMap_splitChars '/' request.data
    rw [splitChars_of_stringsSplit hr] at h4
    have h5 : ((List.map String.data rs).flatMap fun x => '/' :: x) = request.data := by
      simpa using h4
    exact h5.symm

/-- C4 (amended), at `/name/:name` and `/name/bob`. -/
theorem C4_single_wildcard_matches_witness :
    regexpMatchString (findAndReplace "/name/:name") "/name/bob" = some true :=
  C4_single_wildcard_matches "/name/:name" "/name/bob" ["name", ":name"] ["name", "bob"]
    (by decide) (by decide) (by decide) (by decide) (by decide)
    (List.Forall₂.cons (by decide) (List.Forall₂.cons (by decide) List.Forall₂.nil))

theorem not_slash_of_segOK {d r : List Char} (hd : '/' ∉ d) (h : SegOK d r) : '/' ∉ r := by
  unfold SegOK at h
  by_cases hc : ':' ∈ d
  · simp only [hc, if_true] at h
    intro hm
    have := h '/' hm
    revert this
    decide
  · simp only [hc, if_false] at h
    rw [h]
    exact hd

theorem not_slash_of_forall₂ {ds rs : List (List Char)} (hd : ∀ d ∈ ds, '/' ∉ d)
    (h : List.Forall₂ SegOK ds rs) : ∀ r ∈ rs, '/' ∉ r := by
  induction h with
  | nil => simp
  | cons hab _ ih =>
    intro r hr
    rcases List.mem_cons.1 hr with rfl | hr
    · exact not_slash_of_segOK (hd _ (List.mem_cons_self _ _)) hab
    · exact ih (fun d hdm => hd d (List.mem_cons_of_mem _ hdm)) r hr

/-- C5 (as stated, refuted): the pattern of `/a|b/:name` matches `/a/b/c` through its
first alternative, and `GetParam` of `name` is empty, the two paths having different
numbers of pieces; the pattern of `/name/:name/` matches `/name/bob`, and `GetParam`
of `name` is empty although the wildcard piece is `bob`. -/
theorem C5_counterexample :
    (regexpMatchString (findAndReplace "/a|b/:name") "/a/b/c" = some true ∧
      extractParamFromPath "/a|b/:name" "/a/b/c" "name" = some "" ∧
      (stringsSplit "/a|b/:name" '/').length ≠ (stringsSplit "/a/b/c" '/').length) ∧
    (regexpMatchString (findAndReplace "/name/:name/") "/name/bob" = some true ∧
      stringsSplit "/name/bob" '/' = ["", "name", "bob"] ∧
      extractParamFromPath "/name/:name/" "/name/bob" "name" = some "") := by
  decide

/-- C5 (amended): for every declared path that begins with `/`, has no other empty
piece, whose literal pieces are free of special characters, and that has a piece
`:name`, and for every request path that the compiled pattern matches: the request
path splits into as many pieces as the declared path, piece by piece in agreement
with it, and `extractParamFromPath` returns the piece of the request path at the
index of the first piece `:name`, the piece matched by that wildcard, which is made
of token characters. -/
theorem C5_getParam_returns_captured (declared request name : String) (ds : List String)
    (hd : stringsSplit declared '/' = "" :: ds)
    (hne : ∀ d ∈ ds, d ≠ "")
    (hplain : ∀ d ∈ ds, stringsContains d ':' = false → isPlainString d = true)
    (hname : (":" ++ name) ∈ ds)
    (hmatch : regexpMatchString (findAndReplace declared) request = some true) :
    ∃ (rs : List String) (k : Nat) (seg : String),
      stringsSplit request '/' = "" :: rs ∧ List.Forall₂ segmentAgrees ds rs ∧
      ds[k]? = some (":" ++ name) ∧ (∀ j : Nat, j < k → ds[j]? ≠ some (":" ++ name)) ∧
      rs[k]? = some seg ∧ isTokenString seg = true ∧
      extractParamFromPath declared request name = some seg := by
  obtain ⟨h1, h2, h3⟩ := declared_shape hd hne hplain
  have hcname : ':' ∈ (":" ++ name).data := by
    simp [String.data_append]
  have hcolon : stringsContains declared ':' = true := by
    rw [stringsContains_iff]
    refine mem_of_mem_splitChars '/' declared.data (":" ++ name).data ':' ?_ hcname (by decide)
    rw [h1]
    exact List.mem_cons_of_mem _ (List.mem_map.2 ⟨_, hname, rfl⟩)
  obtain ⟨b, hb, hiff⟩ := matchString_wild declared request hcolon h3
  rw [hb] at hmatch
  have hbt : b = true := by simpa using hmatch
  obtain ⟨rs0, hrs0, hreq⟩ := hiff.1 hbt
  rw [h2] at hrs0
  have hslash : ∀ r ∈ rs0, '/' ∉ r := by
    refine not_slash_of_forall₂ ?_ hrs0
    intro d hdm
    refine not_mem_of_mem_splitChars '/' declared.data d ?_
    rw [h1]
    exact List.mem_cons_of_mem _ hdm
  have hsplit : splitChars '/' request.data = [] :: rs0 := by
    rw [hreq]
    simpa using splitChars_flatMap '/' [] rs0 (by simp) hslash
  have hrsplit : stringsSplit request '/' = "" :: rs0.map String.mk := by
    rw [stringsSplit, hsplit]
    rfl
  have hagree : List.Forall₂ segmentAgrees ds (rs0.map String.mk) := by
    rw [List.forall₂_map_left_iff] at hrs0
    rw [List.forall₂_map_right_iff]
    exact hrs0.imp fun d r h => segmentAgrees_of_segOK h
  have hlen : ds.length = (rs0.map String.mk).length := hagree.length_eq
  obtain ⟨i, hi1, hi2, hi3⟩ :=
    extractParamLoop_mem ("" :: rs0.map String.mk) (":" ++ name) 1 ds hname
  have hi : i < ds.length := (List.getElem?_eq_some.1 hi1).1
  have hi' : i < (rs0.map String.mk).length := hlen ▸ hi
  have hget := hagree.get hi hi'
  have hdi : ds.get ⟨i, hi⟩ = ":" ++ name := by
    have := List.getElem?_eq_getElem hi
    rw [hi1] at this
    exact (Option.some.inj this).symm
  refine ⟨rs0.map String.mk, i, (rs0.map String.mk).get ⟨i, hi'⟩, hrsplit, hagree, hi1, hi2,
    List.getElem?_eq_getElem hi', ?_, ?_⟩
  · rw [hdi] at hget
    unfold segmentAgrees at hget
    rw [if_pos ((stringsContains_iff _ _).2 hcname)] at hget
    exact hget
  · have hne0 : ("" : String) ≠ ":" ++ name := by
      intro e
      have := congrArg String.data e
      simp [String.data_append] at this
    have hl : (stringsSplit declared '/').length = (stringsSplit request '/').length := by
      rw [hd, hrsplit]
      simp [hlen]
    simp only [extractParamFromPath, hl, ne_eq, not_true_eq_false, if_false]
    rw [hd, hrsplit]
    simp only [extractParamLoop, hne0, if_false, Nat.zero_add, hi3]
    rw [Nat.add_comm, List.getElem?_cons_succ]
    exact List.getElem?_eq_getElem hi'

/-- C5 (amended), at `/name/:name` and `/name/bob`. -/
theorem C5_getParam_returns_captured_witness :
    regexpMatchString (findAndReplace "/name/:name") "/name/bob" = some true ∧
      extractParamFromPath "/name/:name" "/name/bob" "name" = some "bob" ∧
      ∃ (rs : List String) (k : Nat) (seg : String),
        stringsSplit "/name/bob" '/' = "" :: rs ∧ List.Forall₂ segmentAgrees ["name", ":name"] rs ∧
        ["name", ":name"][k]? = some (":" ++ "name") ∧
        (∀ j : Nat, j < k → ["name", ":name"][j]? ≠ some (":" ++ "name")) ∧
        rs[k]? = some seg ∧ isTokenString seg = true ∧
        extractParamFromPath "/name/:name" "/name/bob" "name" = some seg :=
  ⟨by decide, by decide,
    C5_getParam_returns_captured "/name/:name" "/name/bob" "name" ["name", ":name"]
      (by decide) (by decide) (by decide) (by decide) (by decide)⟩

/-! ## Claims about `getParamsFromPath` -/

theorem lookup_filter_ne (m : ParamsMap) (k key : String) (h : key ≠ k) :
    List.lookup key (m.filter fun b => b.1 ≠ k) = List.lookup key m := by
  induction m with
  | nil => rfl
  | cons b m ih =>
    obtain ⟨a, x⟩ := b
    by_cases ha : a = k
    · subst ha
      have hk : (key == a) = false := by simpa using h
      simp only [ne_eq, decide_not] at ih
      simp [List.filter_cons, List.lookup_cons, hk, ih]
    · by_cases hka : key = a
      · subst hka
        simp [List.filter_cons, List.lookup_cons, ha]
      · have hk : (key == a) = false := by simpa using hka
        simp only [ne_eq, decide_not] at ih
        simp [List.filter_cons, List.lookup_cons, ha, hk, ih]

theorem mapGet_mapSet (m : ParamsMap) (k v key : String) :
    mapGet (mapSet m k v) key = if key = k then some v else mapGet m key := by
  by_cases h : key = k
  · subst h
    simp [mapGet, mapSet, List.lookup_cons]
  · have hk : (key == k) = false := by simpa using h
    simp only [mapGet, mapSet, List.lookup_cons, hk, h, if_false]
    exact lookup_filter_ne m k key h

theorem nodup_mapSet (m : ParamsMap) (k v : String) (h : (m.map Prod.fst).Nodup) :
    ((mapSet m k v).map Prod.fst).Nodup := by
  simp only [mapSet, List.map_cons, List.nodup_cons]
  constructor
  · intro hm
    obtain ⟨b, hb, hbk⟩ := List.mem_map.1 hm
    have := (List.mem_filter.1 hb).2
    simp at this
    exact this hbk
  · exact (h.sublist ((List.filter_sublist _).map Prod.fst))

theorem getParamsLoop_spec (req : List String) (k : Nat) (vs : List String) (m : ParamsMap)
    (hlen : k + vs.length ≤ req.length) (hnd : (m.map Prod.fst).Nodup) :
    ∃ m2, getParamsLoop req k vs m = some m2 ∧ (m2.map Prod.fst).Nodup ∧
      ∀ key, mapGet m2 key =
        match lastWild req key k vs with
        | some y => some y
        | none => mapGet m key := by
  induction vs generalizing k m with
  | nil => exact ⟨m, rfl, hnd, fun key => rfl⟩
  | cons v vs ih =>
    have hk : k < req.length := by
      simp only [List.length_cons] at hlen
      omega
    have hlen2 : k + 1 + vs.length ≤ req.length := by
      simp only [List.length_cons] at hlen
      omega
    by_cases hv : stringsContains v ':' = true
    · obtain ⟨m2, h1, h2, h3⟩ :=
        ih (k + 1) (mapSet m (stringsReplaceAll v ':' "") req[k]) hlen2 (nodup_mapSet _ _ _ hnd)
      refine ⟨m2, ?_, h2, ?_⟩
      · simp only [getParamsLoop, hv, if_true, List.getElem?_eq_getElem hk]
        exact h1
      · intro key
        rw [h3 key]
        simp only [lastWild]
        cases lastWild req key (k + 1) vs with
        | some y => rfl
        | none =>
          simp only [mapGet_mapSet, hv, true_and, List.getElem?_eq_getElem hk]
          by_cases hkey : key = stringsReplaceAll v ':' ""
          · simp [hkey]
          · have hkey2 : ¬ stringsReplaceAll v ':' "" = key := fun e => hkey e.symm
            simp [hkey, hkey2]
    · obtain ⟨m2, h1, h2, h3⟩ := ih (k + 1) m hlen2 hnd
      refine ⟨m2, ?_, h2, ?_⟩
      · simp only [getParamsLoop, hv, if_false]
        exact h1
      · intro key
        rw [h3 key]
        simp only [lastWild]
        cases lastWild req key (k + 1) vs with
        | some y => rfl
        | none => simp [hv]

theorem lastWild_eq_none (req : List String) (key : String) (k : Nat) (vs : List String)
    (hlen : k + vs.length ≤ req.length) :
    lastWild req key k vs = none ↔
      ∀ v ∈ vs, ¬ (stringsContains v ':' = true ∧ stringsReplaceAll v ':' "" = key) := by
  induction vs generalizing k with
  | nil => simp [lastWild]
  | cons v vs ih =>
    have hk : k < req.length := by
      simp only [List.length_cons] at hlen
      omega
    have hlen2 : k + 1 + vs.length ≤ req.length := by
      simp only [List.length_cons] at hlen
      omega
    simp only [lastWild, List.mem_cons, forall_eq_or_imp]
    cases h : lastWild req key (k + 1) vs with
    | some y =>
      have := (ih (k + 1) hlen2).not.1 (by simp [h])
      simp only [reduceCtorEq, false_iff]
      exact fun hc => this hc.2
    | none =>
      have := (ih (k + 1) hlen2).1 h
      by_cases hv : stringsContains v ':' = true ∧ stringsReplaceAll v ':' "" = key
      · simp [hv, List.getElem?_eq_getElem hk]
      · simp only [hv, if_false, true_iff, not_false_eq_true, true_and]
        exact this

theorem lastWild_eq_some (req : List String) (key : String) (k : Nat) (vs : List String)
    (hlen : k + vs.length ≤ req.length) (value : String) :
    lastWild req key k vs = some value ↔
      ∃ (i : Nat) (v : String), vs[i]? = some v ∧
        (stringsContains v ':' = true ∧ stringsReplaceAll v ':' "" = key) ∧
        req[k + i]? = some value ∧
        ∀ (j : Nat) (v2 : String), i < j → vs[j]? = some v2 →
          ¬ (stringsContains v2 ':' = true ∧ stringsReplaceAll v2 ':' "" = key) := by
  induction vs generalizing k with
  | nil => simp [lastWild]
  | cons v vs ih =>
    have hk : k < req.length := by
      simp only [List.length_cons] at hlen
      omega
    have hlen2 : k + 1 + vs.length ≤ req.length := by
      simp only [List.length_cons] at hlen
      omega
    have hnone := lastWild_eq_none req key (k + 1) vs hlen2
    have hsome := ih (k + 1) hlen2
    simp only [lastWild]
    cases h : lastWild req key (k + 1) vs with
    | some y =>
      rw [h] at hsome hnone
      simp only [Option.some.injEq]
      constructor
      · rintro rfl
        obtain ⟨i, v0, h1, h2, h3, h4⟩ := hsome.1 rfl
        refine ⟨i + 1, v0, by simpa using h1, h2, by rw [← h3]; congr 1; omega, ?_⟩
        intro j v2 hj hv2
        cases j with
        | zero => omega
        | succ j =>
          exact h4 j v2 (by omega) (by simpa using hv2)
      · rintro ⟨i, v0, h1, h2, h3, h4⟩
        cases i with
        | zero =>
          exfalso
          have hall : ∀ x ∈ vs,
              ¬ (stringsContains x ':' = true ∧ stringsReplaceAll x ':' "" = key) := by
            intro x hx
            obtain ⟨n, hn, rfl⟩ := List.getElem_of_mem hx
            exact h4 (n + 1) _ (by omega) (by simp [List.getElem?_eq_getElem hn])
          have := hnone.2 hall
          simp at this
        | succ i =>
          have := hsome.2 ⟨i, v0, by simpa using h1, h2, by rw [← h3]; congr 1; omega,
            fun j v2 hj hv2 => h4 (j + 1) v2 (by omega) (by simpa using hv2)⟩
          exact Option.some.inj this
    | none =>
      rw [h] at hnone
      have hall := hnone.1 rfl
      constructor
      · intro hl
        by_cases hv : stringsContains v ':' = true ∧ stringsReplaceAll v ':' "" = key
        · rw [if_pos hv] at hl
          refine ⟨0, v, by simp, hv, by simpa using hl, ?_⟩
          intro j v2 hj hv2
          cases j with
          | zero => omega
          | succ j =>
            have hv2m : v2 ∈ vs := List.getElem?_mem (show vs[j]? = some v2 by simpa using hv2)
            exact hall v2 hv2m
        · rw [if_neg hv] at hl
          simp at hl
      · rintro ⟨i, v0, h1, h2, h3, h4⟩
        cases i with
        | zero =>
          have e : v0 = v := by simpa using h1.symm
          subst e
          rw [if_pos h2]
          simpa using h3
        | succ i =>
          exfalso
          have hv0 : v0 ∈ vs := List.getElem?_mem (show vs[i]? = some v0 by simpa using h1)
          exact hall v0 hv0 h2

/-- C7 (as stated, refuted): both wildcards of `/:id/:id` are named `id`; the map
binds `id` to `2`, the piece at index 2, and not to `1`, the piece of the request
path at the index of the first wildcard. And the piece `a:b`, which does not begin
with `:`, yields the key `ab`. -/
theorem C7_counterexample :
    ((stringsSplit "/:id/:id" '/').length = (stringsSplit "/1/2" '/').length ∧
      (stringsSplit "/:id/:id" '/')[1]? = some ":id" ∧
      (stringsSplit "/1/2" '/')[1]? = some "1" ∧
      getParamsFromPath "/:id/:id" "/1/2" = some [("id", "2")]) ∧
    ((stringsSplit "/a:b" '/').length = (stringsSplit "/x" '/').length ∧
      getParamsFromPath "/a:b" "/x" = some [("ab", "x")]) := by
  decide

/-- C7 (amended): for every routerPath and requestPath with the same number of
pieces, `getParamsFromPath` does not panic and returns a map with one binding per
key, whose keys are the pieces of routerPath that contain `:`, every `:` deleted
(the name, for a piece `:name`); each key is bound to the piece of the request path
at the index of the LAST such piece of routerPath, and there is no other key. -/
theorem C7_getParams_bindings (routerPath requestPath : String)
    (hlen : (stringsSplit routerPath '/').length = (stringsSplit requestPath '/').length) :
    ∃ m, getParamsFromPath routerPath requestPath = some m ∧ (m.map Prod.fst).Nodup ∧
      ∀ key value : String, mapGet m key = some value ↔
        ∃ (k : Nat) (v : String), (stringsSplit routerPath '/')[k]? = some v ∧
          (stringsContains v ':' = true ∧ stringsReplaceAll v ':' "" = key) ∧
          (stringsSplit requestPath '/')[k]? = some value ∧
          ∀ (j : Nat) (v2 : String), k < j → (stringsSplit routerPath '/')[j]? = some v2 →
            ¬ (stringsContains v2 ':' = true ∧ stringsReplaceAll v2 ':' "" = key) := by
  have hl : 0 + (stringsSplit routerPath '/').length ≤ (stringsSplit requestPath '/').length := by
    omega
  obtain ⟨m, h1, h2, h3⟩ :=
    getParamsLoop_spec (stringsSplit requestPath '/') 0 (stringsSplit routerPath '/') [] hl
      (by simp)
  refine ⟨m, h1, h2, ?_⟩
  intro key value
  have h4 := lastWild_eq_some (stringsSplit requestPath '/') key 0
    (stringsSplit routerPath '/') hl value
  simp only [Nat.zero_add] at h4
  rw [← h4, h3 key]
  cases lastWild (stringsSplit requestPath '/') key 0 (stringsSplit routerPath '/') with
  | some y => rfl
  | none => simp [mapGet]

/-- C7 (amended), at `/auth/:name/:age` and `/auth/madhuri/32`: the result is the map
that binds `name` to `madhuri` and `age` to `32`, and nothing else. -/
theorem C7_getParams_bindings_witness :
    (∃ m, getParamsFromPath "/auth/:name/:age" "/auth/madhuri/32" = some m ∧
      mapGet m "name" = some "madhuri" ∧ mapGet m "age" = some "32" ∧ m.length = 2) ∧
    ∃ m, getParamsFromPath "/auth/:name/:age" "/auth/madhuri/32" = some m ∧
      (m.map Prod.fst).Nodup ∧
      ∀ key value : String, mapGet m key = some value ↔
        ∃ (k : Nat) (v : String), (stringsSplit "/auth/:name/:age" '/')[k]? = some v ∧
          (stringsContains v ':' = true ∧ stringsReplaceAll v ':' "" = key) ∧
          (stringsSplit "/auth/madhuri/32" '/')[k]? = some value ∧
          ∀ (j : Nat) (v2 : String), k < j →
            (stringsSplit "/auth/:name/:age" '/')[j]? = some v2 →
            ¬ (stringsContains v2 ':' = true ∧ stringsReplaceAll v2 ':' "" = key) :=
  ⟨⟨[("age", "32"), ("name", "madhuri")], by decide, by decide, by decide, by decide⟩,
    C7_getParams_bindings "/auth/:name/:age" "/auth/madhuri/32" (by decide)⟩

/-! ## Claims about the dispatcher -/

theorem handleRouterLoop_no_match (urlPath : String) (ctx : Ctx) (i : Nat)
    (routers : List router) (h : ∀ r ∈ routers, routeMatches r urlPath = false) :
    handleRouterLoop urlPath ctx i routers =
      ⟨{ ctx with Writer := handle404 ctx.Writer }, []⟩ := by
  induction routers generalizing i with
  | nil => rfl
  | cons r rest ih =>
    have hr : (regexpMatchString r.regexPath urlPath).getD false = false :=
      h r (List.mem_cons_self _ _)
    simp only [handleRouterLoop, hr, Bool.false_eq_true, if_false]
    exact ih (i + 1) fun x hx => h x (List.mem_cons_of_mem _ hx)

theorem handleRouterLoop_first_match (urlPath : String) (ctx : Ctx) (i : Nat)
    (pre post : List router) (r : router)
    (hpre : ∀ p ∈ pre, routeMatches p urlPath = false)
    (hr : routeMatches r urlPath = true) :
    handleRouterLoop urlPath ctx i (pre ++ r :: post) =
      ⟨afterHandler r ctx, [i + pre.length]⟩ := by
  induction pre generalizing i with
  | nil =>
    have hr2 : (regexpMatchString r.regexPath urlPath).getD false = true := hr
    simp only [List.nil_append, handleRouterLoop, hr2, if_true, afterHandler, List.length_nil,
      Nat.add_zero]
    split <;> simp_all
  | cons p pre ih =>
    have hp : (regexpMatchString p.regexPath urlPath).getD false = false :=
      hpre p (List.mem_cons_self _ _)
    have e : handleRouterLoop urlPath ctx i ((p :: pre) ++ r :: post) =
        handleRouterLoop urlPath ctx (i + 1) (pre ++ r :: post) := by
      simp only [List.cons_append, handleRouterLoop, hp, Bool.false_eq_true, if_false]
      rfl
    rw [e, ih (i + 1) fun x hx => hpre x (List.mem_cons_of_mem _ hx)]
    simp only [List.length_cons]
    congr 2
    omega

theorem exists_first_match (urlPath : String) (routers : List router)
    (h : ∃ r ∈ routers, routeMatches r urlPath = true) :
    ∃ pre r post, routers = pre ++ r :: post ∧
      (∀ p ∈ pre, routeMatches p urlPath = false) ∧ routeMatches r urlPath = true := by
  induction routers with
  | nil => simp at h
  | cons a rest ih =>
    by_cases ha : routeMatches a urlPath = true
    · exact ⟨[], a, rest, rfl, by simp, ha⟩
    · have h2 : ∃ r ∈ rest, routeMatches r urlPath = true := by
        obtain ⟨r, hr, hm⟩ := h
        rcases List.mem_cons.1 hr with rfl | hr
        · exact absurd hm ha
        · exact ⟨r, hr, hm⟩
      obtain ⟨pre, r, post, e, h3, h4⟩ := ih h2
      refine ⟨a :: pre, r, post, by rw [e]; rfl, ?_, h4⟩
      intro p hp
      rcases List.mem_cons.1 hp with rfl | hp
      · simpa using ha
      · exact h3 p hp

/-- C8: `handleRouter` calls the handler of the FIRST route, in the order of the
list, whose pattern matches the URL path of the request, on the context bound to
the declared path of that route, and calls no other handler: the calls made are the
single call at the position of that route, whatever routes follow it. -/
theorem C8_first_match_wins (ctx : Ctx) (ferry : Ferry) (pre post : List router) (r : router)
    (hpre : ∀ p ∈ pre, routeMatches p ctx.requestURLPath = false)
    (hr : routeMatches r ctx.requestURLPath = true) :
    (handleRouter ctx ferry (pre ++ r :: post)).invoked = [pre.length] ∧
      (handleRouter ctx ferry (pre ++ r :: post)).ctx = afterHandler r ctx := by
  simp only [handleRouter]
  rw [handleRouterLoop_first_match ctx.requestURLPath ctx 0 pre post r hpre hr]
  simp

/-- C8, at two routes A then B declared on the same path `/auth`: both patterns match
the request, the handler of A is called and the handler of B is not. -/
theorem C8_first_match_wins_witness :
    routeMatches (sampleRoute "/auth" (sampleOk "A")) sampleCtx.requestURLPath = true ∧
      routeMatches (sampleRoute "/auth" (sampleOk "B")) sampleCtx.requestURLPath = true ∧
      (handleRouter sampleCtx sampleFerry
          ([] ++ sampleRoute "/auth" (sampleOk "A") :: [sampleRoute "/auth" (sampleOk "B")])).invoked
        = [0] ∧
      (handleRouter sampleCtx sampleFerry
          ([] ++ sampleRoute "/auth" (sampleOk "A") :: [sampleRoute "/auth" (sampleOk "B")])).ctx
        = afterHandler (sampleRoute "/auth" (sampleOk "A")) sampleCtx ∧
      (afterHandler (sampleRoute "/auth" (sampleOk "A")) sampleCtx).Writer =
        [.writeHeader 200, .write "A"] :=
  ⟨by decide, by decide,
    (C8_first_match_wins sampleCtx sampleFerry [] [sampleRoute "/auth" (sampleOk "B")]
      (sampleRoute "/auth" (sampleOk "A")) (by simp) (by decide)).1,
    (C8_first_match_wins sampleCtx sampleFerry [] [sampleRoute "/auth" (sampleOk "B")]
      (sampleRoute "/auth" (sampleOk "A")) (by simp) (by decide)).2,
    by decide⟩

/-- C9: the response is the 404 response, status 404 and body `Check URL`, and no
handler is called, when `handleRouting` finds no route list for the method of the
request, and when `handleRouter` finds no route whose pattern matches the URL path;
when the pattern of some route matches, `handleRouter` calls one handler and what
it adds itself to the sink after that handler contains no status 404. -/
theorem C9_not_found (ctx : Ctx) (ferry : Ferry) :
    (∀ groupLevelMiddleware, ferry.routerMap ctx.requestMethod = none →
        handleRouting groupLevelMiddleware ferry ctx =
          ⟨{ ctx with Writer := ctx.Writer ++ [.writeHeader 404, .write "Check URL"] }, []⟩) ∧
      (∀ routers : List router, (∀ r ∈ routers, routeMatches r ctx.requestURLPath = false) →
        handleRouter ctx ferry routers =
          ⟨{ ctx with Writer := ctx.Writer ++ [.writeHeader 404, .write "Check URL"] }, []⟩) ∧
      (∀ routers : List router, (∃ r ∈ routers, routeMatches r ctx.requestURLPath = true) →
        ∃ r ∈ routers, ∃ extra : List WriterCall,
          (handleRouter ctx ferry routers).invoked.length = 1 ∧
          (handleRouter ctx ferry routers).ctx.Writer =
            (r.handler { ctx with routerPath := r.routerPath }).1.Writer ++ extra ∧
          WriterCall.writeHeader 404 ∉ extra) := by
  refine ⟨?_, ?_, ?_⟩
  · intro glm h
    simp only [handleRouting, h]
    rfl
  · intro routers h
    simp only [handleRouter]
    rw [handleRouterLoop_no_match _ _ _ _ h]
    rfl
  · intro routers h
    obtain ⟨pre, r, post, e, hpre, hr⟩ := exists_first_match _ _ h
    subst e
    refine ⟨r, by simp, ?_⟩
    simp only [handleRouter]
    rw [handleRouterLoop_first_match ctx.requestURLPath ctx 0 pre post r hpre hr]
    cases hres : r.handler { ctx with routerPath := r.routerPath } with
    | mk c err =>
      cases err with
      | none =>
        refine ⟨[], rfl, ?_, by simp⟩
        simp [afterHandler, hres]
      | some msg =>
        refine ⟨[.writeHeader 500, .write msg], rfl, ?_, by simp⟩
        simp only [afterHandler, hres]
        rfl

/-- C9, at the request `GET /auth`: on a server without routes, and on a route list
whose only route is declared on `/login`. -/
theorem C9_not_found_witness :
    handleRouting (fun c f rs => handleRouter c f rs) sampleFerry sampleCtx =
        ⟨{ sampleCtx with Writer := [.writeHeader 404, .write "Check URL"] }, []⟩ ∧
      handleRouter sampleCtx sampleFerry [sampleRoute "/login" (sampleOk "A")] =
        ⟨{ sampleCtx with Writer := [.writeHeader 404, .write "Check URL"] }, []⟩ :=
  ⟨(C9_not_found sampleCtx sampleFerry).1 _ rfl,
    (C9_not_found sampleCtx sampleFerry).2.1 _ (by decide)⟩

/-- C10: for the matched route, the first one whose pattern matches, what
`handleRouter` itself adds to the response sink after the handler has run is status
500 followed by the message of the error exactly when the handler returned an error,
and is nothing when the handler returned `nil`. -/
theorem C10_error_response (ctx : Ctx) (ferry : Ferry) (pre post : List router) (r : router)
    (hpre : ∀ p ∈ pre, routeMatches p ctx.requestURLPath = false)
    (hr : routeMatches r ctx.requestURLPath = true) :
    ∃ extra : List WriterCall,
      (handleRouter ctx ferry (pre ++ r :: post)).ctx =
        { (r.handler { ctx with routerPath := r.routerPath }).1 with
          Writer := (r.handler { ctx with routerPath := r.routerPath }).1.Writer ++ extra } ∧
      (∀ msg : String, extra = [.writeHeader 500, .write msg] ↔
        (r.handler { ctx with routerPath := r.routerPath }).2 = some msg) ∧
      (extra = [] ↔ (r.handler { ctx with routerPath := r.routerPath }).2 = none) := by
  simp only [handleRouter]
  rw [handleRouterLoop_first_match ctx.requestURLPath ctx 0 pre post r hpre hr]
  cases hres : r.handler { ctx with routerPath := r.routerPath } with
  | mk c err =>
    cases err with
    | none =>
      refine ⟨[], ?_, by simp, by simp⟩
      simp [afterHandler, hres]
    | some msg =>
      refine ⟨[.writeHeader 500, .write msg], ?_, by simp, by simp⟩
      simp only [afterHandler, hres]
      rfl

/-- C10, at the request `GET /auth` and a route on `/auth` whose handler fails with
`boom`: the response is status 500 with body `boom`. -/
theorem C10_error_response_witness :
    routeMatches (sampleRoute "/auth" sampleFail) sampleCtx.requestURLPath = true ∧
      (handleRouter sampleCtx sampleFerry [sampleRoute "/auth" sampleFail]).ctx.Writer =
        [.writeHeader 500, .write "boom"] ∧
      (handleRouter sampleCtx sampleFerry [sampleRoute "/auth" (sampleOk "A")]).ctx.Writer =
        [.writeHeader 200, .write "A"] ∧
      ∃ extra : List WriterCall,
        (handleRouter sampleCtx sampleFerry ([] ++ sampleRoute "/auth" sampleFail :: [])).ctx =
          { ((sampleRoute "/auth" sampleFail).handler
              { sampleCtx with routerPath := (sampleRoute "/auth" sampleFail).routerPath }).1 with
            Writer := ((sampleRoute "/auth" sampleFail).handler
              { sampleCtx with routerPath :=
                (sampleRoute "/auth" sampleFail).routerPath }).1.Writer ++ extra } ∧
        (∀ msg : String, extra = [.writeHeader 500, .write msg] ↔
          ((sampleRoute "/auth" sampleFail).handler
            { sampleCtx with routerPath := (sampleRoute "/auth" sampleFail).routerPath }).2
              = some msg) ∧
        (extra = [] ↔ ((sampleRoute "/auth" sampleFail).handler
            { sampleCtx with routerPath := (sampleRoute "/auth" sampleFail).routerPath }).2
              = none) :=
  ⟨by decide, by decide, by decide,
    C10_error_response sampleCtx sampleFerry [] [] (sampleRoute "/auth" sampleFail)
      (by simp) (by decide)⟩

/-! ## Further claims about the pattern compiler -/

/-- C14: for every declared path `p` that contains no `:`, `findAndReplace p` is the
string `^`, then `p` unmodified, then `$`. -/
theorem C14_literal_pattern_text (p : String) (hcolon : stringsContains p ':' = false) :
    findAndReplace p = "^" ++ p ++ "$" := by
  simp [findAndReplace, hcolon]

/-- C14, at `/auth//login`: the path is kept as it is, doubled slash included. -/
theorem C14_literal_pattern_text_witness :
    stringsContains "/auth//login" ':' = false ∧
      findAndReplace "/auth//login" = "^" ++ "/auth//login" ++ "$" :=
  ⟨by decide, C14_literal_pattern_text "/auth//login" (by decide)⟩

/-- C19 (the code fails the claim): the pattern compiled for the declared path
`/api//:id` (the prefix `/api/` of a group followed by the route `/:id`) matches the
request path `/api/7`, and `getParamsFromPath` then reads the piece of index 3 of a
request path that has 3 pieces: an index out of range, a run-time panic. -/
theorem C19_getParams_panics_on_matched_request :
    regexpMatchString (findAndReplace "/api//:id") "/api/7" = some true ∧
      stringsSplit "/api//:id" '/' = ["", "api", "", ":id"] ∧
      stringsSplit "/api/7" '/' = ["", "api", "7"] ∧
      getParamsFromPath "/api//:id" "/api/7" = none ∧
      extractParamFromPath "/api//:id" "/api/7" "id" = some "" := by
  decide

theorem plain_of_strings {declared : String}
    (hplain : ∀ d ∈ stringsSplit declared '/', stringsContains d ':' = false →
      isPlainString d = true) :
    ∀ d ∈ splitChars '/' declared.data, ':' ∈ d ∨ ∀ c ∈ d, isMeta c = false := by
  intro d hd
  by_cases hc : ':' ∈ d
  · exact Or.inl hc
  · right
    have hmem : String.mk d ∈ stringsSplit declared '/' := List.mem_map.2 ⟨d, hd, rfl⟩
    have hc2 : stringsContains (String.mk d) ':' = false := by
      rw [Bool.eq_false_iff]
      exact fun e => hc ((stringsContains_iff _ ':').1 e)
    have := hplain _ hmem hc2
    simp only [isPlainString, List.all_eq_true, Bool.not_eq_true'] at this
    exact this

theorem filter_stringsSplit (s : String) :
    ((stringsSplit s '/').filter fun d => d ≠ "") =
      ((splitChars '/' s.data).filter fun d => d ≠ []).map String.mk := by
  rw [stringsSplit, List.filter_map]
  congr 2
  funext d
  simp only [Function.comp_apply, ne_eq, decide_not]
  congr 2
  exact propext ⟨fun h => congrArg String.data h, fun h => String.ext h⟩

theorem data_join_slash (rs : List (List Char)) :
    (String.join ((rs.map String.mk).map fun r => "/" ++ r)).data =
      rs.flatMap ('/' :: ·) := by
  induction rs with
  | nil => rfl
  | cons r rs ih =>
    simp only [String.data_join, List.map_cons, List.flatten_cons, List.flatMap_cons] at ih ⊢
    rw [ih]
    rfl

/-- Matching against the pattern of a declared path that has a wildcard and whose
literal pieces are free of special characters, on strings: the request path is a
sequence of pieces, each after a slash, in agreement one by one with the non-empty
pieces of the declared path. -/
theorem matchString_wild_strings (declared request : String)
    (hcolon : stringsContains declared ':' = true)
    (hplain : ∀ d ∈ stringsSplit declared '/', stringsContains d ':' = false →
      isPlainString d = true) :
    ∃ b, regexpMatchString (findAndReplace declared) request = some b ∧
      (b = true ↔ ∃ rs : List String,
        request = String.join (rs.map fun r => "/" ++ r) ∧
          List.Forall₂ segmentAgrees ((stringsSplit declared '/').filter fun d => d ≠ "") rs) := by
  obtain ⟨b, hb, hiff⟩ := matchString_wild declared request hcolon (plain_of_strings hplain)
  refine ⟨b, hb, ?_⟩
  rw [hiff, filter_stringsSplit]
  constructor
  · rintro ⟨rs0, h1, h2⟩
    refine ⟨rs0.map String.mk, ?_, ?_⟩
    · apply String.ext
      rw [data_join_slash]
      exact h2
    · rw [List.forall₂_map_left_iff, List.forall₂_map_right_iff]
      exact h1.imp fun d r h => segmentAgrees_of_segOK h
  · rintro ⟨rs, h1, h2⟩
    refine ⟨rs.map String.data, ?_, ?_⟩
    · rw [List.forall₂_map_left_iff] at h2
      rw [List.forall₂_map_right_iff]
      exact h2.imp fun d r h => segOK_of_segmentAgrees h
    · have e : rs = (rs.map String.data).map String.mk := by
        rw [List.map_map]
        simp [Function.comp_def]
      rw [h1, e, data_join_slash, ← e]

theorem findAndReplace_segmentPattern (path : String)
    (hcolon : stringsContains path ':' = true) :
    findAndReplace path =
      "^" ++ String.join ((stringsSplit path '/').map segmentPattern) ++ "$" := by
  rw [findAndReplace_wild path hcolon]
  apply String.ext
  simp only [String.data_append, String.data_join, stringsSplit, List.map_map]
  have : ∀ segs : List (List Char),
      (segs.map (String.data ∘ segmentPattern ∘ String.mk)).flatten = segs.flatMap segText := by
    intro segs
    induction segs with
    | nil => rfl
    | cons d ds ih =>
      rw [List.map_cons, List.flatten_cons, ih, List.flatMap_cons]
      congr 1
      have hd : (String.mk d = "") ↔ d = [] := by
        rw [String.ext_iff]
      by_cases h1 : d = []
      · simp [segmentPattern, segText, h1]
      · by_cases h2 : ':' ∈ d
        · simp [segmentPattern, segText, hd, h1, h2, stringsContains]
        · simp [segmentPattern, segText, hd, h1, h2, stringsContains]
  rw [this]
  simp

theorem fragment_matchString (s : String) :
    regexpMatchString ("^" ++ routerRegexReplace ++ "$") s = some (s.data.all isTokenChar) := by
  have hpat : "^" ++ routerRegexReplace ++ "$" =
      String.mk ('^' :: (routerRegexReplace.data ++ ['$'])) := by
    decide
  rw [hpat]
  have hlex : LexesTo routerRegexReplace.data ([PatItem.wild].flatMap PatItem.toks) := by
    simpa using LexesTo.wild
  obtain ⟨b, hb, hiff⟩ := matchString_items hlex s
  rw [hb]
  congr 1
  rw [Bool.eq_iff_iff, hiff, List.all_eq_true]
  simp only [ItemsMatch]
  constructor
  · rintro ⟨u, v, huv, hu, rfl⟩
    simpa [huv] using hu
  · intro h
    exact ⟨s.data, [], by simp, h, rfl⟩

theorem count_slash_flatMap (rs : List (List Char)) (h : ∀ r ∈ rs, '/' ∉ r) :
    (rs.flatMap ('/' :: ·)).count '/' = rs.length := by
  induction rs with
  | nil => rfl
  | cons r rs ih =>
    rw [List.flatMap_cons, List.count_append, ih fun x hx => h x (List.mem_cons_of_mem _ hx)]
    have hr : r.count '/' = 0 := List.count_eq_zero.2 (h r (List.mem_cons_self _ _))
    simp only [List.count_cons_self, hr, List.length_cons]
    omega

/-- C15 (as stated, refuted): the piece `a:b` of the declared path `/a:b` does not
begin with `:`, and it is replaced by the wildcard fragment: the pattern matches
`/zzz` and does not match `/a:b`. And the literal piece `a.b` of `/a.b/:x` is kept
verbatim, so that its dot matches any character: the pattern matches `/axb/1`. -/
theorem C15_counterexample :
    (findAndReplace "/a:b" = "^\\/[a-zA-Z0-9_-]*$" ∧
      regexpMatchString (findAndReplace "/a:b") "/zzz" = some true ∧
      regexpMatchString (findAndReplace "/a:b") "/a:b" = some false) ∧
    (findAndReplace "/a.b/:x" = "^\\/a.b\\/[a-zA-Z0-9_-]*$" ∧
      regexpMatchString (findAndReplace "/a.b/:x") "/axb/1" = some true) := by
  decide

/-- C15 (amended): for every declared path that contains a wildcard, the pattern is,
between `^` and `$`, one escaped slash per non-empty piece followed by the piece
itself, verbatim, when the piece does not CONTAIN `:`, and by the wildcard fragment
when it does; and when the pieces without `:` are free of special characters, the
pattern matches a request path exactly when that path is made of as many pieces,
each after a slash, equal to the declared piece where it has no `:` and made of
token characters where it has one. -/
theorem C15_literal_segments_verbatim (declared request : String)
    (hcolon : stringsContains declared ':' = true)
    (hplain : ∀ d ∈ stringsSplit declared '/', stringsContains d ':' = false →
      isPlainString d = true) :
    findAndReplace declared =
        "^" ++ String.join ((stringsSplit declared '/').map segmentPattern) ++ "$" ∧
      (regexpMatchString (findAndReplace declared) request = some true ↔
        ∃ rs : List String, request = String.join (rs.map fun r => "/" ++ r) ∧
          List.Forall₂ segmentAgrees ((stringsSplit declared '/').filter fun d => d ≠ "") rs) := by
  refine ⟨findAndReplace_segmentPattern declared hcolon, ?_⟩
  obtain ⟨b, hb, hiff⟩ := matchString_wild_strings declared request hcolon hplain
  rw [hb, ← hiff]
  simp

/-- C15 (amended), at `/auth/:name` and `/auth/madhuri`. -/
theorem C15_literal_segments_verbatim_witness :
    findAndReplace "/auth/:name" =
        "^" ++ String.join ((stringsSplit "/auth/:name" '/').map segmentPattern) ++ "$" ∧
      (regexpMatchString (findAndReplace "/auth/:name") "/auth/madhuri" = some true ↔
        ∃ rs : List String, "/auth/madhuri" = String.join (rs.map fun r => "/" ++ r) ∧
          List.Forall₂ segmentAgrees
            ((stringsSplit "/auth/:name" '/').filter fun d => d ≠ "") rs) :=
  C15_literal_segments_verbatim "/auth/:name" "/auth/madhuri" (by decide) (by decide)

/-- C16: a wildcard never captures more than one piece: for every declared path
that contains a wildcard and whose literal pieces are free of special characters,
and every request path that its compiled pattern matches, the request path has
exactly as many `/` as the declared path has non-empty pieces; and the wildcard
fragment alone matches no string that contains `/`. -/
theorem C16_wildcard_single_segment (declared request : String)
    (hcolon : stringsContains declared ':' = true)
    (hplain : ∀ d ∈ stringsSplit declared '/', stringsContains d ':' = false →
      isPlainString d = true)
    (hmatch : regexpMatchString (findAndReplace declared) request = some true) :
    request.data.count '/' = ((stringsSplit declared '/').filter fun d => d ≠ "").length ∧
      ∀ s : String, regexpMatchString ("^" ++ routerRegexReplace ++ "$") s = some true →
        stringsContains s '/' = false := by
  constructor
  · obtain ⟨b, hb, hiff⟩ :=
      matchString_wild declared request hcolon (plain_of_strings hplain)
    rw [hb] at hmatch
    have hbt : b = true := by simpa using hmatch
    obtain ⟨rs0, hrs0, hreq⟩ := hiff.1 hbt
    have hslash : ∀ r ∈ rs0, '/' ∉ r := by
      refine not_slash_of_forall₂ ?_ hrs0
      intro d hdm
      exact not_mem_of_mem_splitChars '/' declared.data d (List.mem_filter.1 hdm).1
    rw [hreq, count_slash_flatMap rs0 hslash, filter_stringsSplit, List.length_map,
      hrs0.length_eq]
  · intro s hs
    rw [fragment_matchString] at hs
    have hall : s.data.all isTokenChar = true := by simpa using hs
    rw [Bool.eq_false_iff]
    intro hc
    have := (List.all_eq_true.1 hall) '/' ((stringsContains_iff s '/').1 hc)
    revert this
    decide

/-- C16, at `/name/:name` and `/name/bob`: two slashes, two non-empty pieces. -/
theorem C16_wildcard_single_segment_witness :
    regexpMatchString (findAndReplace "/name/:name") "/name/bob" = some true ∧
      ("/name/bob" : String).data.count '/' = 2 ∧
      ("/name/bob" : String).data.count '/' =
        ((stringsSplit "/name/:name" '/').filter fun d => d ≠ "").length ∧
      regexpMatchString (findAndReplace "/name/:name") "/name/bob/x" = some false :=
  ⟨by decide, by decide,
    (C16_wildcard_single_segment "/name/:name" "/name/bob" (by decide) (by decide)
      (by decide)).1,
    by decide⟩

/-! ## Further claims about the dispatcher and the parameters -/

/-- C17: on the first matching route, `handleRouter` sets the `routerPath` of the
context to the declared path of that route before it calls the handler, so that in
the handler `GetParam` and `GetParams` are computed from the declared path of the
matched route and the URL path of the request; when no route matches, the
`routerPath` of the context is left as it was. -/
theorem C17_routerPath_bound (ctx : Ctx) (ferry : Ferry) :
    (∀ (pre post : List router) (r : router),
        (∀ p ∈ pre, routeMatches p ctx.requestURLPath = false) →
        routeMatches r ctx.requestURLPath = true →
        (handleRouter ctx ferry (pre ++ r :: post)).ctx =
            (match r.handler { ctx with routerPath := r.routerPath } with
              | (c, some err) => { c with Writer := handlerRouterError err c.Writer }
              | (c, none) => c) ∧
          ({ ctx with routerPath := r.routerPath } : Ctx).routerPath = r.routerPath ∧
          (∀ name : String, Ctx.GetParam { ctx with routerPath := r.routerPath } name =
            extractParamFromPath r.routerPath ctx.requestURLPath name) ∧
          Ctx.GetParams { ctx with routerPath := r.routerPath } =
            getParamsFromPath r.routerPath ctx.requestURLPath) ∧
      (∀ routers : List router, (∀ r ∈ routers, routeMatches r ctx.requestURLPath = false) →
        (handleRouter ctx ferry routers).ctx.routerPath = ctx.routerPath) := by
  constructor
  · intro pre post r hpre hr
    refine ⟨?_, rfl, fun _ => rfl, rfl⟩
    simp only [handleRouter]
    rw [handleRouterLoop_first_match ctx.requestURLPath ctx 0 pre post r hpre hr]
    rfl
  · intro routers h
    simp only [handleRouter]
    rw [handleRouterLoop_no_match _ _ _ _ h]

/-- C17, at the route `/name/:name` of the example program and the request
`/name/bob`: the handler reads the parameter `name` and answers `hello, bob`; and a
request that matches no route leaves `routerPath` empty. -/
theorem C17_routerPath_bound_witness :
    (handleRouter sampleBobCtx sampleFerry
        [sampleRoute "/auth" (sampleOk "A"), sampleRoute "/name/:name" sampleGreet]).ctx =
      { Writer := [.writeHeader 200, .write "hello, bob"], requestMethod := "GET",
        requestURLPath := "/name/bob", routerPath := "/name/:name", queryPath := "" } ∧
    (handleRouter sampleBobCtx sampleFerry
        [sampleRoute "/auth" (sampleOk "A")]).ctx.routerPath = "" :=
  ⟨((C17_routerPath_bound sampleBobCtx sampleFerry).1
      [sampleRoute "/auth" (sampleOk "A")] [] (sampleRoute "/name/:name" sampleGreet)
      (by decide) (by decide)).1.trans (by decide),
    (C17_routerPath_bound sampleBobCtx sampleFerry).2
      [sampleRoute "/auth" (sampleOk "A")] (by decide)⟩

theorem getParams_bindings_aux (routerPath requestPath : String)
    (hlen : (stringsSplit routerPath '/').length = (stringsSplit requestPath '/').length) :
    ∃ m, getParamsFromPath routerPath requestPath = some m ∧
      ∀ key value : String, mapGet m key = some value ↔
        ∃ (k : Nat) (v : String), (stringsSplit routerPath '/')[k]? = some v ∧
          (stringsContains v ':' = true ∧ stringsReplaceAll v ':' "" = key) ∧
          (stringsSplit requestPath '/')[k]? = some value ∧
          ∀ (j : Nat) (v2 : String), k < j → (stringsSplit routerPath '/')[j]? = some v2 →
            ¬ (stringsContains v2 ':' = true ∧ stringsReplaceAll v2 ':' "" = key) := by
  have hl : 0 + (stringsSplit routerPath '/').length ≤ (stringsSplit requestPath '/').length := by
    omega
  obtain ⟨m, h1, _, h3⟩ :=
    getParamsLoop_spec (stringsSplit requestPath '/') 0 (stringsSplit routerPath '/') [] hl
      (by simp)
  refine ⟨m, h1, ?_⟩
  intro key value
  have h4 := lastWild_eq_some (stringsSplit requestPath '/') key 0
    (stringsSplit routerPath '/') hl value
  simp only [Nat.zero_add] at h4
  rw [← h4, h3 key]
  cases lastWild (stringsSplit requestPath '/') key 0 (stringsSplit routerPath '/') with
  | some y => rfl
  | none => simp [mapGet]

theorem index_unique_of_nodup_filter (p : String → Bool) (l : List String)
    (h : (l.filter p).Nodup) (i j : Nat) (v : String)
    (hi : l[i]? = some v) (hj : l[j]? = some v) (hp : p v = true) : i = j := by
  induction l generalizing i j with
  | nil => simp at hi
  | cons a l ih =>
    have hsub : (l.filter p).Nodup := by
      by_cases ha : p a = true
      · rw [List.filter_cons_of_pos ha] at h
        exact (List.nodup_cons.1 h).2
      · rw [List.filter_cons_of_neg ha] at h
        exact h
    cases i with
    | zero =>
      cases j with
      | zero => rfl
      | succ j =>
        exfalso
        have e : a = v := by simpa using hi
        subst e
        have hm : a ∈ l := List.getElem?_mem (show l[j]? = some a by simpa using hj)
        rw [List.filter_cons_of_pos hp] at h
        exact (List.nodup_cons.1 h).1 (List.mem_filter.2 ⟨hm, hp⟩)
    | succ i =>
      cases j with
      | zero =>
        exfalso
        have e : a = v := by simpa using hj
        subst e
        have hm : a ∈ l := List.getElem?_mem (show l[i]? = some a by simpa using hi)
        rw [List.filter_cons_of_pos hp] at h
        exact (List.nodup_cons.1 h).1 (List.mem_filter.2 ⟨hm, hp⟩)
      | succ j =>
        have := ih hsub i j (by simpa using hi) (by simpa using hj)
        omega

/-- C20 (as stated, refuted): for `/:id/:id` and `/1/2`, two paths of three pieces,
the map of `getParamsFromPath` binds the key `id` to `2` and `extractParamFromPath`
returns `1` for `id`; for `/a:b` and `/x` the map binds the key `ab` to `x` and
`extractParamFromPath` returns the empty string for `ab`. -/
theorem C20_counterexample :
    ((stringsSplit "/:id/:id" '/').length = (stringsSplit "/1/2" '/').length ∧
      getParamsFromPath "/:id/:id" "/1/2" = some [("id", "2")] ∧
      mapGet [("id", "2")] "id" = some "2" ∧
      extractParamFromPath "/:id/:id" "/1/2" "id" = some "1") ∧
    ((stringsSplit "/a:b" '/').length = (stringsSplit "/x" '/').length ∧
      getParamsFromPath "/a:b" "/x" = some [("ab", "x")] ∧
      mapGet [("ab", "x")] "ab" = some "x" ∧
      extractParamFromPath "/a:b" "/x" "ab" = some "") := by
  decide

/-- C20 (amended): `GetParam` and `GetParams` agree when the wildcards are well
formed: for every routerPath whose pieces containing `:` are each a `:` followed by
a name without `:`, no such piece occurring twice, and every requestPath with the
same number of pieces, `getParamsFromPath` returns a map, and for every key `k`
bound in it `extractParamFromPath` of `k` returns the value bound to `k`. -/
theorem C20_getParam_agrees_with_getParams (routerPath requestPath : String)
    (hlen : (stringsSplit routerPath '/').length = (stringsSplit requestPath '/').length)
    (hshape : ∀ v ∈ stringsSplit routerPath '/', stringsContains v ':' = true →
      v = ":" ++ stringsReplaceAll v ':' "")
    (hdistinct : ((stringsSplit routerPath '/').filter fun v => stringsContains v ':').Nodup) :
    ∃ m, getParamsFromPath routerPath requestPath = some m ∧
      ∀ key value : String, mapGet m key = some value →
        extractParamFromPath routerPath requestPath key = some value := by
  obtain ⟨m, hm, hiff⟩ := getParams_bindings_aux routerPath requestPath hlen
  refine ⟨m, hm, ?_⟩
  intro key value hkv
  obtain ⟨k, v, hk, ⟨hc, hs⟩, hreq, -⟩ := (hiff key value).1 hkv
  have hv : v = ":" ++ key := by
    have := hshape v (List.getElem?_mem hk) hc
    rw [hs] at this
    exact this
  subst hv
  obtain ⟨i, hi1, -, hi3⟩ :=
    extractParamLoop_mem (stringsSplit requestPath '/') (":" ++ key) 0
      (stringsSplit routerPath '/') (List.getElem?_mem hk)
  have hik : i = k :=
    index_unique_of_nodup_filter (fun v => stringsContains v ':') _ hdistinct i k _ hi1 hk hc
  subst hik
  simp only [extractParamFromPath, hlen, ne_eq, not_true_eq_false, if_false, hi3, Nat.zero_add]
  exact hreq

/-- C20 (amended), at `/auth/:name/:age` and `/auth/madhuri/32`. -/
theorem C20_getParam_agrees_with_getParams_witness :
    extractParamFromPath "/auth/:name/:age" "/auth/madhuri/32" "name" = some "madhuri" ∧
      extractParamFromPath "/auth/:name/:age" "/auth/madhuri/32" "age" = some "32" ∧
      ∃ m, getParamsFromPath "/auth/:name/:age" "/auth/madhuri/32" = some m ∧
        ∀ key value : String, mapGet m key = some value →
          extractParamFromPath "/auth/:name/:age" "/auth/madhuri/32" key = some value :=
  ⟨by decide, by decide,
    C20_getParam_agrees_with_getParams "/auth/:name/:age" "/auth/madhuri/32" (by decide)
      (by decide) (by decide)⟩

/-! ## Claims about groups -/

/-- C11: `addRoute` on a group changes the route table of the owning server only by
appending one route at the END of the list of the method, with `routerPath` the
prefix of the group followed by the path and `regexPath` the pattern compiled from
that concatenation: the routes already in that list keep their order and content,
the list of every other method is unchanged, and so are the middleware map and
every other server; `Get` and `Post` are `addRoute` for `GET` and `POST`. -/
theorem C11_addRoute_appends (g : group) (method path : String) (h : handler) (store : Store) :
    ((g.addRoute method path h store) g.ferry).routerMap method =
        some (((store g.ferry).routerMap method).getD [] ++
          [{ routerPath := g.path ++ path, regexPath := findAndReplace (g.path ++ path),
             handler := h }]) ∧
      (∀ m : String, m ≠ method →
        ((g.addRoute method path h store) g.ferry).routerMap m = (store g.ferry).routerMap m) ∧
      ((g.addRoute method path h store) g.ferry).groupMiddlewareMap =
        (store g.ferry).groupMiddlewareMap ∧
      (∀ a : Nat, a ≠ g.ferry → (g.addRoute method path h store) a = store a) ∧
      g.Get path h store = g.addRoute "GET" path h store ∧
      g.Post path h store = g.addRoute "POST" path h store := by
  refine ⟨?_, ?_, ?_, ?_, rfl, rfl⟩
  · simp [group.addRoute, mapAppend]
  · intro m hm
    simp [group.addRoute, mapAppend, hm]
  · simp [group.addRoute]
  · intro a ha
    simp [group.addRoute, ha]

/-- C11, on the group `/auth` of an empty server: after `Get "/login"` and then
`Get "/:id"`, the list of `GET` holds the two routes in that order, and the list of
`POST` is still absent. -/
theorem C11_addRoute_appends_witness :
    ((sampleGroup.Get "/:id" (sampleOk "B") (sampleGroup.Get "/login" (sampleOk "A") sampleStore))
        0).routerMap "GET" =
      some [{ routerPath := "/auth/login", regexPath := "^/auth/login$", handler := sampleOk "A" },
        { routerPath := "/auth/:id", regexPath := "^\\/auth\\/[a-zA-Z0-9_-]*$",
          handler := sampleOk "B" }] ∧
    ((sampleGroup.Get "/login" (sampleOk "A") sampleStore) 0).routerMap "POST" = none :=
  ⟨((C11_addRoute_appends sampleGroup "GET" "/:id" (sampleOk "B")
      (sampleGroup.Get "/login" (sampleOk "A") sampleStore)).1).trans (by
        have e1 : findAndReplace ("/auth" ++ "/:id") = "^\\/auth\\/[a-zA-Z0-9_-]*$" := by decide
        have e2 : findAndReplace ("/auth" ++ "/login") = "^/auth/login$" := by decide
        simp [sampleGroup, group.Get, group.addRoute, mapAppend, sampleStore, sampleFerry, get,
          e1, e2]
        decide),
    ((C11_addRoute_appends sampleGroup "GET" "/login" (sampleOk "A") sampleStore).2.1 "POST"
      (by decide)).trans rfl⟩

/-- C12: the sub-group `g.Group(p)` has the path of `g` followed by `p` and the same
owning server; so the prefix of a nested sub-group is the concatenation of the
prefixes of its ancestors, in the order of nesting. -/
theorem C12_group_prefix_concat (g : group) (p q : String) :
    (g.Group p).path = g.path ++ p ∧ (g.Group p).ferry = g.ferry ∧
      ((g.Group p).Group q).path = g.path ++ p ++ q ∧
      ((g.Group p).Group q).path = (g.Group (p ++ q)).path ∧
      ((g.Group p).Group q).ferry = g.ferry := by
  refine ⟨rfl, rfl, rfl, ?_, rfl⟩
  simp [group.Group, String.append_assoc]

/-- C12, on the group `/auth`: the sub-group `/v1` of its sub-group `/api`. -/
theorem C12_group_prefix_concat_witness :
    ((sampleGroup.Group "/api").Group "/v1").path = "/auth/api/v1" :=
  ((C12_group_prefix_concat sampleGroup "/api" "/v1").2.2.1).trans (by decide)

/-- C18: `g.Use(h)` appends `h` at the end of the middleware list kept under the key
`g.path`, the full prefix of the group, in the middleware map of the owning server:
the earlier entries of that list stay in order, the lists of the other prefixes, the
route table and the other servers are unchanged; two groups of one server with the
same full prefix therefore share one list. -/
theorem C18_use_appends (g : group) (h : handler) (store : Store) :
    ((g.Use h store) g.ferry).groupMiddlewareMap g.path =
        some (((store g.ferry).groupMiddlewareMap g.path).getD [] ++ [h]) ∧
      (∀ k : String, k ≠ g.path →
        ((g.Use h store) g.ferry).groupMiddlewareMap k = (store g.ferry).groupMiddlewareMap k) ∧
      ((g.Use h store) g.ferry).routerMap = (store g.ferry).routerMap ∧
      (∀ a : Nat, a ≠ g.ferry → (g.Use h store) a = store a) ∧
      (∀ (g2 : group) (h2 : handler), g2.path = g.path → g2.ferry = g.ferry →
        ((g2.Use h2 (g.Use h store)) g.ferry).groupMiddlewareMap g.path =
          some (((store g.ferry).groupMiddlewareMap g.path).getD [] ++ [h, h2])) := by
  refine ⟨?_, ?_, ?_, ?_, ?_⟩
  · simp [group.Use, mapAppend]
  · intro k hk
    simp [group.Use, mapAppend, hk]
  · simp [group.Use]
  · intro a ha
    simp [group.Use, ha]
  · intro g2 h2 hp hf
    simp [group.Use, mapAppend, hp, hf]

/-- C18, on the group `/auth` of an empty server and a second group with the same
prefix: the list under `/auth` holds the two handlers in the order of the calls. -/
theorem C18_use_appends_witness :
    (((sampleGroup.Group "").Use sampleFail (sampleGroup.Use (sampleOk "A") sampleStore))
        sampleGroup.ferry).groupMiddlewareMap sampleGroup.path =
      some ((sampleFerry.groupMiddlewareMap "/auth").getD [] ++ [sampleOk "A", sampleFail]) :=
  (C18_use_appends sampleGroup (sampleOk "A") sampleStore).2.2.2.2 (sampleGroup.Group "")
    sampleFail (by decide) rfl

/-! ## Claim about the middleware chain -/

/-- C13: with the global middleware G1, G2 and the group middleware M1 of the group
of the route R, where G1 calls `Next`: when G2 and M1 call `Next` too and R is the
first route that matches, the stages run are G1, G2, M1 and the handler of R, in
that order, and the outcome is that of the handler of R on the context that M1
leaves; when G2 returns an error without calling `Next`, the stages run are G1 and
G2 only, whatever M1 and the routes are, and the response is the 500 response that
carries the error of G2. -/
theorem C13_middleware_chain_order (G1 G2 M1 : middleware) (ferry : Ferry)
    (routers : List router) (ctx c1 : Ctx) (h1 : G1 ctx = (c1, Verdict.callNext)) :
    (∀ (c2 c3 : Ctx) (pre post : List router) (r : router),
        G2 c1 = (c2, Verdict.callNext) → M1 c2 = (c3, Verdict.callNext) →
        routers = pre ++ r :: post →
        (∀ p ∈ pre, routeMatches p c3.requestURLPath = false) →
        routeMatches r c3.requestURLPath = true →
        dispatchChain [G1, G2] [M1] ferry routers ctx =
          ⟨afterHandler r c3, none,
            [Stage.app 0, Stage.app 1, Stage.grp 0, Stage.route pre.length]⟩) ∧
      (∀ (c2 : Ctx) (e : String), G2 c1 = (c2, Verdict.ret (some e)) →
        dispatchChain [G1, G2] [M1] ferry routers ctx =
          ⟨{ c2 with Writer := c2.Writer ++ [.writeHeader 500, .write e] }, some e,
            [Stage.app 0, Stage.app 1]⟩) := by
  constructor
  · intro c2 c3 pre post r h2 h3 hr hpre hm
    subst hr
    simp only [dispatchChain, runTier, h1, h2, h3, handleRouter]
    rw [handleRouterLoop_first_match c3.requestURLPath c3 0 pre post r hpre hm]
    simp
  · intro c2 e h2
    simp only [dispatchChain, runTier, h1, h2]
    rfl

/-- C13, at the request `GET /auth` with middleware that mark the sink: the marks of
G1, G2 and M1 precede the answer of the handler; and when G2 denies, the sink holds
the mark of G1 and the 500 response with the error of G2. -/
theorem C13_middleware_chain_order_witness :
    dispatchChain [sampleMark "G1", sampleMark "G2"] [sampleMark "M1"] sampleFerry
        [sampleRoute "/auth" (sampleOk "R")] sampleCtx =
      ⟨{ sampleCtx with
          routerPath := "/auth"
          Writer := [.write "G1", .write "G2", .write "M1", .writeHeader 200, .write "R"] },
        none, [Stage.app 0, Stage.app 1, Stage.grp 0, Stage.route 0]⟩ ∧
    dispatchChain [sampleMark "G1", sampleDeny] [sampleMark "M1"] sampleFerry
        [sampleRoute "/auth" (sampleOk "R")] sampleCtx =
      ⟨{ sampleCtx with
          Writer := [.write "G1", .writeHeader 500, .write "denied"] },
        some "denied", [Stage.app 0, Stage.app 1]⟩ :=
  ⟨((C13_middleware_chain_order (sampleMark "G1") (sampleMark "G2") (sampleMark "M1")
      sampleFerry [sampleRoute "/auth" (sampleOk "R")] sampleCtx _ rfl).1 _ _ []
      [] (sampleRoute "/auth" (sampleOk "R")) rfl rfl rfl (by simp) (by decide)).trans
      (by decide),
    ((C13_middleware_chain_order (sampleMark "G1") sampleDeny (sampleMark "M1")
      sampleFerry [sampleRoute "/auth" (sampleOk "R")] sampleCtx _ rfl).2 _ "denied"
      rfl).trans (by decide)⟩

end ferry
